import Mathlib

/-!
Shallow embedding of the sidecar-metadata core of the Obsidian dance-steps
plugin (src/src/repo.ts, src/src/view.tsx, src/src/organize.ts and the
filter/sort helper) together with proofs settling the frozen claims.

Text is modelled as Lean `String` (logically a list of characters); the
JavaScript string operations used by the source (trim, split, slice,
indexOf, regex replaces) are given executable models over `String.data`.
External collaborators (the Obsidian vault, `parseYaml`, `localeCompare`,
`normalizePath`, `Array.prototype.sort`) are modelled by executable Lean
functions following their documented behaviour; each such model carries a
doc comment naming the original.
-/

/-- Characters treated as whitespace by the model of JS `trim` (space, tab,
newline, carriage return; the common subset of the JS whitespace class). -/
def isWsChar (c : Char) : Bool :=
  c = ' ' || c = '\t' || c = '\n' || c = '\r'

/-- Model of `String.prototype.trim` (left part). -/
def trimLeftL (l : List Char) : List Char :=
  l.dropWhile isWsChar

/-- Model of `String.prototype.trim` (right part). -/
def trimRightL (l : List Char) : List Char :=
  (trimLeftL l.reverse).reverse

/-- Model of `String.prototype.trim`. -/
def jsTrim (s : String) : String :=
  ⟨trimRightL (trimLeftL s.data)⟩

/-- Prepend a character to the first chunk of a split result. -/
def consHead (c : Char) : List (List Char) → List (List Char)
  | [] => [[c]]
  | l :: ls => (c :: l) :: ls

/-- Model of `split(/\r?\n/)`: split at each `\r\n` or `\n`; a lone `\r`
stays inside its line. -/
def splitLinesL : List Char → List (List Char)
  | [] => [[]]
  | [c] => if c = '\n' then [[], []] else [[c]]
  | c :: d :: rest =>
    if c = '\n' then [] :: splitLinesL (d :: rest)
    else if c = '\r' && d = '\n' then [] :: splitLinesL rest
    else consHead c (splitLinesL (d :: rest))

/-- Lines of a string under the JS `\r?\n` splitting. -/
def jsLines (s : String) : List String :=
  (splitLinesL s.data).map (fun l => ⟨l⟩)

/-- Split at every occurrence of a separator character (model of the JS
`split` with a one-character separator string). -/
def splitOnCharL (ch : Char) : List Char → List (List Char)
  | [] => [[]]
  | c :: rest =>
    if c = ch then [] :: splitOnCharL ch rest else consHead c (splitOnCharL ch rest)

/-- String wrapper for `splitOnCharL`. -/
def jsSplitChar (s : String) (ch : Char) : List String :=
  (splitOnCharL ch s.data).map (fun l => ⟨l⟩)

/-- Model of `Array.prototype.join("\n")` on a list of lines. -/
def joinN (ls : List String) : String :=
  ⟨List.intercalate ['\n'] (ls.map (·.data))⟩

/-- First index at or after the scan start where `pat` occurs (helper). -/
def findSubAux (pat : List Char) : List Char → Nat → Option Nat
  | [], i => if pat = [] then some i else none
  | c :: rest, i =>
    if pat.isPrefixOf (c :: rest) then some i else findSubAux pat rest (i + 1)

/-- Model of `String.prototype.indexOf(pat, start)`; `none` plays the role
of the JS result `-1`. -/
def idxFrom (s pat : String) (start : Nat) : Option Nat :=
  (findSubAux pat.data (s.data.drop start) 0).map (· + start)

/-- Model of `String.prototype.startsWith`. -/
def strStartsWith (s t : String) : Bool :=
  t.data.isPrefixOf s.data

/-- Model of `content.slice(a, b)` (take the characters in `[a, b)`). -/
def strSlice (s : String) (a b : Nat) : String :=
  ⟨(s.data.drop a).take (b - a)⟩

/-- Model of `content.slice(a)` (drop the first `a` characters). -/
def strDrop (s : String) (a : Nat) : String :=
  ⟨s.data.drop a⟩

/-- ASCII lowercase of one character (model of the per-character effect
of `toLowerCase`). -/
def lowerChar (c : Char) : Char :=
  if c = 'A' then 'a' else if c = 'B' then 'b' else if c = 'C' then 'c'
  else if c = 'D' then 'd' else if c = 'E' then 'e' else if c = 'F' then 'f'
  else if c = 'G' then 'g' else if c = 'H' then 'h' else if c = 'I' then 'i'
  else if c = 'J' then 'j' else if c = 'K' then 'k' else if c = 'L' then 'l'
  else if c = 'M' then 'm' else if c = 'N' then 'n' else if c = 'O' then 'o'
  else if c = 'P' then 'p' else if c = 'Q' then 'q' else if c = 'R' then 'r'
  else if c = 'S' then 's' else if c = 'T' then 't' else if c = 'U' then 'u'
  else if c = 'V' then 'v' else if c = 'W' then 'w' else if c = 'X' then 'x'
  else if c = 'Y' then 'y' else if c = 'Z' then 'z' else c

/-- Model of `String.prototype.toLowerCase` (exact on ASCII input). -/
def jsToLower (s : String) : String :=
  ⟨s.data.map lowerChar⟩

/-- The character class `[a-zA-Z0-9]` of the slug regexes. -/
def isAlnumAscii (c : Char) : Bool :=
  ('a' ≤ c && c ≤ 'z') || ('A' ≤ c && c ≤ 'Z') || ('0' ≤ c && c ≤ '9')

mutual
/-- Model of `replace(/[^a-zA-Z0-9]+/g, "-")`: each maximal run of
non-alphanumeric characters becomes a single dash. -/
def collapseRunsL : List Char → List Char
  | [] => []
  | c :: rest =>
    if isAlnumAscii c then c :: collapseRunsL rest else '-' :: skipRunL rest

/-- Helper of `collapseRunsL`: skip the rest of a non-alphanumeric run. -/
def skipRunL : List Char → List Char
  | [] => []
  | c :: rest =>
    if isAlnumAscii c then c :: collapseRunsL rest else skipRunL rest
end

/-- Model of `replace(/^-+|-+$/g, "")`: strip leading and trailing dashes. -/
def trimDashesL (l : List Char) : List Char :=
  ((l.dropWhile (· = '-')).reverse.dropWhile (· = '-')).reverse

/-- `normalizeTag` from src/src/repo.ts line 208:
`s.trim().replace(/[^a-zA-Z0-9]+/g, "-").replace(/^-+|-+$/g, "")`. -/
def normalizeTag (s : String) : String :=
  ⟨trimDashesL (collapseRunsL (jsTrim s).data)⟩

/-- `slug` from src/src/view.tsx lines 92-100: trim, Unicode NFKD
normalization with combining-mark removal (identity on ASCII, modelled as
the identity), dash-collapse non-alphanumerics, strip dashes, lowercase.
Returns "" for blank input. -/
def slug (s : String) : String :=
  jsToLower (normalizeTag s)

/-- Model of `replace(/^\n+/, "")`. -/
def dropLeadingNlL (l : List Char) : List Char :=
  l.dropWhile (· = '\n')

/-- Model of the single (non-global) replace `replace(/\n+$/m, "\n")`:
the leftmost match of one-or-more newlines ending at a line end is
replaced by a single newline.  Concretely: at the first newline run, if
the run ends the string the whole run becomes one newline; if the run has
length at least two the run becomes two newlines (the match is the run
minus its final newline, and that final newline survives); a length-one
run followed by other text matches nothing and scanning continues. -/
def collapseTrailingL : List Char → List Char
  | [] => []
  | c :: rest =>
    if c = '\n' then
      let tail := rest.dropWhile (fun d => d = '\n')
      if tail.isEmpty then ['\n']
      else if (rest.takeWhile (fun d => d = '\n')).isEmpty then
        c :: collapseTrailingL rest
      else '\n' :: '\n' :: tail
    else c :: collapseTrailingL rest

/-- String wrapper for `collapseTrailingL`. -/
def collapseTrailing (s : String) : String :=
  ⟨collapseTrailingL s.data⟩

/-- String wrapper for `dropLeadingNlL`. -/
def dropLeadingNl (s : String) : String :=
  ⟨dropLeadingNlL s.data⟩

/-- Lexicographic code-point comparison; model of `localeCompare` as used
for the stable path/name orderings (the source relies only on it being a
total order consistent across calls). -/
def lexCmp : List Char → List Char → Int
  | [], [] => 0
  | [], _ :: _ => -1
  | _ :: _, [] => 1
  | a :: as, b :: bs =>
    if a < b then -1 else if b < a then 1 else lexCmp as bs

/-- `a.localeCompare(b)` model on strings. -/
def strCmp (a b : String) : Int :=
  lexCmp a.data b.data

/-- Substring containment, model of `String.prototype.includes`. -/
def containsSubL (s pat : List Char) : Bool :=
  match findSubAux pat s 0 with
  | some _ => true
  | none => false

/-- Model of `haystack.includes(needle)`. -/
def strIncludes (s pat : String) : Bool :=
  containsSubL s.data pat.data

/-- Digit value of an ASCII digit character. -/
def digitVal (c : Char) : Nat :=
  c.toNat - 48

/-- Value of a digit string, most significant first. -/
def digitsToNat (l : List Char) : Nat :=
  l.foldl (fun acc c => acc * 10 + digitVal c) 0

/-- Whether every character is an ASCII digit. -/
def allDigits (l : List Char) : Bool :=
  l.all (fun c => '0' ≤ c && c ≤ '9')

/-- A JS number as parsed from a decimal scalar: the value
`mant / 10 ^ exp`.  Finite decimals represent the doubles the source
meets exactly enough for flooring, clamping and decimal re-rendering;
every such number is finite, so the source's `isFinite` guards hold. -/
structure DecNum where
  mant : Int
  exp : Nat
deriving DecidableEq, Repr

/-- The floor of a decimal number (model of `Math.floor`, rounding toward
negative infinity). -/
def floorD (n : DecNum) : Int :=
  Int.fdiv n.mant ((10 : Int) ^ n.exp)

/-- A decimal number holding an integer value exactly. -/
def intNum (i : Int) : DecNum :=
  ⟨i, 0⟩

/-- Decimal-literal parser for the YAML scalar model: digits with an
optional fractional part (both parts non-empty). -/
def parseNumCore (l : List Char) : Option DecNum :=
  match splitOnCharL '.' l with
  | [ip] =>
    if ip ≠ [] ∧ allDigits ip then some ⟨digitsToNat ip, 0⟩ else none
  | [ip, fp] =>
    if ip ≠ [] ∧ fp ≠ [] ∧ allDigits ip ∧ allDigits fp then
      some ⟨digitsToNat ip * (10 : Int) ^ fp.length + digitsToNat fp, fp.length⟩
    else none
  | _ => none

/-- Signed decimal literal parser (models the numeric scalars the YAML
parser coerces). -/
def parseNumL (l : List Char) : Option DecNum :=
  match l with
  | '-' :: r => (parseNumCore r).map (fun q => ⟨-q.mant, q.exp⟩)
  | '+' :: r => parseNumCore r
  | r => parseNumCore r

/-- The character of a decimal digit. -/
def digitChar : Nat → Char
  | 0 => '0'
  | 1 => '1'
  | 2 => '2'
  | 3 => '3'
  | 4 => '4'
  | 5 => '5'
  | 6 => '6'
  | 7 => '7'
  | 8 => '8'
  | _ => '9'

/-- Decimal digits of a natural number, most significant first (helper;
the fuel dominates the digit count and is never exhausted). -/
def natDigitsAux : Nat → Nat → List Char
  | 0, _ => []
  | fuel + 1, n =>
    if n < 10 then [digitChar n]
    else natDigitsAux fuel (n / 10) ++ [digitChar (n % 10)]

/-- Decimal digits of a natural number. -/
def natDigits (n : Nat) : String :=
  ⟨natDigitsAux (n + 1) n⟩

/-- Drop trailing zero decimal digits (canonicalization used by the JS
number-to-string model; recursion on the exponent). -/
def stripZerosD : Int → Nat → DecNum
  | m, 0 => ⟨m, 0⟩
  | m, e + 1 => if m % 10 = 0 then stripZerosD (m / 10) e else ⟨m, e + 1⟩

/-- The fractional digits, left-padded with zeros to the exponent. -/
def fracDigits (r : Nat) (e : Nat) : String :=
  ⟨List.replicate (e - (natDigits r).data.length) '0' ++ (natDigits r).data⟩

/-- Model of JS `String(number)` for finite decimals: canonical decimal
form, integers without a fractional part (so `String(2.0)` is "2",
matching JS). -/
def renderDecNum (q0 : DecNum) : String :=
  let q := stripZerosD q0.mant q0.exp
  let sgnStr : String := if q.mant < 0 then "-" else ""
  let n := q.mant.natAbs
  let d := (10 : Nat) ^ q.exp
  if q.exp = 0 then sgnStr ++ natDigits n
  else sgnStr ++ natDigits (n / d) ++ "." ++ fracDigits (n % d) q.exp

/-- Frontmatter scalar values: plain strings, coerced numbers, and the
null produced by an empty value (models the value space the source
observes through `parseYaml`). -/
inductive YVal where
  | str (s : String)
  | num (q : DecNum)
  | nul
deriving DecidableEq, Repr

/-- Model of JS `String(v)` on frontmatter values (`String(null)` is
"null"). -/
def renderYVal : YVal → String
  | .str s => s
  | .num q => renderDecNum q
  | .nul => "null"

/-- Split a line at its first colon. -/
def splitFirstColon : List Char → Option (List Char × List Char)
  | [] => none
  | c :: rest =>
    if c = ':' then some ([], rest)
    else (splitFirstColon rest).map (fun p => (c :: p.1, p.2))

/-- One frontmatter mapping line per the codec contract: `key: value`,
both trimmed; a line without a colon or with an empty key is dropped; an
empty value denotes null; entirely numeric values are coerced. -/
def parseKvLine (l : String) : Option (String × YVal) :=
  match splitFirstColon l.data with
  | none => none
  | some kv =>
    let key := jsTrim ⟨kv.1⟩
    let val := jsTrim ⟨kv.2⟩
    if key = "" then none
    else some (key,
      if val = "" then .nul
      else match parseNumL val.data with
        | some q => .num q
        | none => .str val)

/-- A parsed frontmatter mapping: keys in insertion order (models a JS
object as the source iterates it with `Object.entries`). -/
abbrev Fm := List (String × YVal)

/-- First-match lookup (JS property read). -/
def lookupFm : Fm → String → Option YVal
  | [], _ => none
  | (k, v) :: rest, key => if k = key then some v else lookupFm rest key

/-- JS property write: overwrite in place if present, else append. -/
def setVal : Fm → String → YVal → Fm
  | [], key, v => [(key, v)]
  | (k, w) :: rest, key, v =>
    if k = key then (k, v) :: rest else (k, w) :: setVal rest key v

/-- JS `delete` of a property. -/
def delKey : Fm → String → Fm
  | [], _ => []
  | (k, w) :: rest, key =>
    if k = key then delKey rest key else (k, w) :: delKey rest key

/-- Model of the external `parseYaml` (Obsidian API) on frontmatter
blocks, following the codec contract of the spec: each `key: value` line
becomes one field (later duplicates win), other lines are dropped; a text
with no mapping line parses to a non-record, which the callers observe as
null (`none`). -/
def parseYamlModel (s : String) : Option Fm :=
  let kvs := (jsLines s).filterMap parseKvLine
  if kvs.isEmpty then none
  else some (kvs.foldl (fun acc kv => setVal acc kv.1 kv.2) [])

/-- The metadata patch of `upsertSidecarMetadata` (src/src/repo.ts line
162); `cls` embeds the TS field named `class`. -/
structure MetaPatch where
  stepName : Option String := none
  description : Option String := none
  dance : Option String := none
  danceStyle : Option String := none
  cls : Option String := none
  classLevel : Option String := none
  playCount : Option DecNum := none
  lastPlayedAt : Option DecNum := none
deriving DecidableEq, Repr

/-- Conditional string-field write (`if (meta.x !== undefined) fm.x = meta.x`). -/
def setStrOpt (fm : Fm) (k : String) : Option String → Fm
  | some v => setVal fm k (.str v)
  | none => fm

/-- The alias write of src/src/repo.ts lines 198-201: a provided
`danceStyle` sets both the `style` and `danceStyle` keys. -/
def setStyleAlias (fm : Fm) : Option String → Fm
  | some v => setVal (setVal fm "style" (.str v)) "danceStyle" (.str v)
  | none => fm

/-- The guarded `playCount` write of src/src/repo.ts line 204
(`Math.max(0, Math.floor(...))`). -/
def setPlayCountOpt (fm : Fm) : Option DecNum → Fm
  | some q => setVal fm "playCount" (.num (intNum (max 0 (floorD q))))
  | none => fm

/-- The guarded `lastPlayedAt` write of src/src/repo.ts line 205
(`Math.floor(...)`). -/
def setLastPlayedOpt (fm : Fm) : Option DecNum → Fm
  | some q => setVal fm "lastPlayedAt" (.num (intNum (floorD q)))
  | none => fm

/-- The patch application of src/src/repo.ts lines 194-205: every
provided field overwrites the parsed frontmatter; `danceStyle` writes
both the `style` and `danceStyle` keys; `class`/`classLevel` collapse to
the single `class` key via `meta.class ?? meta.classLevel`; `playCount`
is floored and clamped at zero, `lastPlayedAt` floored. -/
def applyMeta (fm : Fm) (m : MetaPatch) : Fm :=
  setLastPlayedOpt
    (setPlayCountOpt
      (setStrOpt
        (setStyleAlias
          (setStrOpt
            (setStrOpt
              (setStrOpt fm "stepName" m.stepName)
              "description" m.description)
            "dance" m.dance)
          m.danceStyle)
        "class" (m.cls.orElse (fun _ => m.classLevel)))
      m.playCount)
    m.lastPlayedAt

/-- The frontmatter parse shared by `readSidecarFrontmatter` (src/src/
repo.ts lines 73-94) and the inline parse of `readSidecarDescription`:
a document starting with `---` whose closing `\n---` exists yields the
parsed record, anything else yields null. -/
def parseFmOfContent (c : String) : Option Fm :=
  if strStartsWith c "---" then
    match idxFrom c "\n---" 3 with
    | some e => parseYamlModel (jsTrim (strSlice c 3 e))
    | none => none
  else none

/-- The sidecar load of `upsertSidecarMetadata` (src/src/repo.ts lines
171-191): frontmatter fields plus the stored `__body`.  A document with
an opening `---` but no closing delimiter sets neither (`([], none)`);
a document without frontmatter keeps its whole content as the body. -/
def parseSidecar (c : String) : Fm × Option String :=
  if strStartsWith c "---" then
    match idxFrom c "\n---" 3 with
    | some e =>
      ((parseYamlModel (jsTrim (strSlice c 3 e))).getD [], some (strDrop c (e + 4)))
    | none => ([], none)
  else ([], some c)

/-- The dance hashtag of src/src/repo.ts line 209: present only when the
merged `dance` field is a non-empty string, and produced by
`normalizeTag` (which does not lowercase). -/
def danceTagOf (fm : Fm) : String :=
  match lookupFm fm "dance" with
  | some (.str d) => if d = "" then "" else normalizeTag d
  | _ => ""

/-- The managed first body line (src/src/repo.ts line 210). -/
def tagsLineOf (fm : Fm) : String :=
  let t := danceTagOf fm
  if t = "" then "#DanceLibrary" else "#DanceLibrary #" ++ t

/-- src/src/repo.ts lines 218-222: drop the body's first line when it
trim-starts with `#DanceLibrary` (only index 0 is inspected). -/
def dropFirstTagLine (b : String) : String :=
  joinN (((jsLines b).enum.filter
    (fun p => ¬(p.1 = 0 ∧ strStartsWith (jsTrim p.2) "#DanceLibrary"))).map (·.2))

/-- The rebuilt body of src/src/repo.ts lines 216-223: managed tag line,
blank line, then the stored body with a leading tag line dropped and
leading newlines stripped; finally the `/\n+$/m` replace. -/
def upsertBody (stored : Option String) (fm : Fm) : String :=
  let existingBody := stored.getD ""
  let bodyNoTag := dropLeadingNl (dropFirstTagLine existingBody)
  collapseTrailing (tagsLineOf fm ++ "\n\n" ++ bodyNoTag)

/-- The serialized frontmatter block, one `key: value` line per present
field (src/src/repo.ts lines 225-231). -/
def renderFmLines (fm : Fm) : List String :=
  "---" :: (fm.map (fun kv => kv.1 ++ ": " ++ renderYVal kv.2) ++ ["---"])

/-- The frontmatter mapping an upsert serializes: parsed fields patched
by the meta, with the legacy `tags` key deleted (src/src/repo.ts lines
193-214). -/
def upsertFm (existing : Option String) (m : MetaPatch) : Fm :=
  delKey (applyMeta (match existing with
    | none => ([] : Fm)
    | some c => (parseSidecar c).1) m) "tags"

/-- The full sidecar text an upsert writes (src/src/repo.ts lines
207-232), as a function of the previous sidecar content (if any) and the
patch. -/
def upsertText (existing : Option String) (m : MetaPatch) : String :=
  let fm0 := match existing with
    | none => ([] : Fm)
    | some c => (parseSidecar c).1
  let stored := match existing with
    | none => (none : Option String)
    | some c => (parseSidecar c).2
  let fm1 := applyMeta fm0 m
  joinN (renderFmLines (delKey fm1 "tags")) ++ "\n\n" ++ upsertBody stored fm1

/-- Model of `String.prototype.lastIndexOf` for a single character
(returns -1 when absent, like JS). -/
def jsLastIndexOf (s : String) (ch : Char) : Int :=
  match s.data.reverse.findIdx? (· = ch) with
  | some i => ((s.data.length : Int) - 1 - (i : Int))
  | none => -1

/-- Model of `String.prototype.substring` with the JS clamping and
argument-swapping semantics. -/
def jsSubstring (s : String) (a b : Int) : String :=
  let n : Int := s.data.length
  let a1 := min (max a 0) n
  let b1 := min (max b 0) n
  let lo := min a1 b1
  let hi := max a1 b1
  ⟨(s.data.drop lo.toNat).take (hi - lo).toNat⟩

/-- Model of `String.prototype.endsWith`. -/
def strEndsWith (s t : String) : Bool :=
  t.data.isSuffixOf s.data

/-- A vault file: path plus text content (binary payloads are opaque
strings).  Models Obsidian `TFile`; `name`, `basename`, `extension` and
`parent.path` are derived from the path below. -/
structure VFile where
  path : String
  content : String
deriving DecidableEq, Repr

/-- The file name: the path segment after the last slash. -/
def pathFileName (p : String) : String :=
  jsSubstring p (jsLastIndexOf p '/' + 1) p.data.length

/-- Model of `TFile.extension`: the part of the name after its last dot
("" when the name has no dot). -/
def fileExt (p : String) : String :=
  let nm := pathFileName p
  let i := jsLastIndexOf nm '.'
  if i < 0 then "" else jsSubstring nm (i + 1) nm.data.length

/-- Model of `TFile.basename`: the name without its extension. -/
def fileBase (p : String) : String :=
  let nm := pathFileName p
  let i := jsLastIndexOf nm '.'
  if i < 0 then nm else jsSubstring nm 0 i

/-- Model of `TFile.parent.path` (the empty string stands for the vault
root folder). -/
def parentPathOf (p : String) : String :=
  jsSubstring p 0 (jsLastIndexOf p '/')

/-- The vault as a file list; the list order is the enumeration order of
`vault.getFiles()` and of `parent.children`. -/
abbrev Vault := List VFile

/-- Model of `vault.getAbstractFileByPath` (restricted to files). -/
def getByPath (st : Vault) (p : String) : Option VFile :=
  st.find? (fun f => f.path = p)

/-- Model of `parent.children` (the files sharing the parent folder), in
enumeration order. -/
def childrenOf (st : Vault) (f : VFile) : List VFile :=
  st.filter (fun c => parentPathOf c.path = parentPathOf f.path)

/-- `VIDEO_EXTS` of src/src/repo.ts line 4 (the scanner allow-list). -/
def VIDEO_EXTS : List String :=
  ["mp4", "webm", "mov", "m4v", "ogg", "avi"]

/-- `IMAGE_EXTS` of src/src/repo.ts line 5. -/
def IMAGE_EXTS : List String :=
  ["png", "jpg", "jpeg", "webp", "gif"]

/-- `isVideo` of src/src/repo.ts lines 25-27. -/
def isVideo (f : VFile) : Bool :=
  VIDEO_EXTS.contains (jsToLower (fileExt f.path))

/-- `VIDEO_EXTS` of src/src/organize.ts line 4 (the organize/import
intake allow-list; note it has no `avi`). -/
def ORGANIZE_VIDEO_EXTS : List String :=
  ["mp4", "mov", "webm", "m4v", "ogg"]

/-- The intake guard of `organizeVideoFile` (src/src/organize.ts lines
80-81) and of the import modal's `handleImport` (src/src/importer.ts
lines 77-79): the file is processed only when its lowercased extension is
in the organize allow-list. -/
def organizeAccepts (f : VFile) : Bool :=
  ORGANIZE_VIDEO_EXTS.contains (jsToLower (fileExt f.path))

/-- `findThumbFor` of src/src/repo.ts lines 29-42: first sibling image
whose basename matches case-insensitively. -/
def findThumbFor (st : Vault) (f : VFile) : Option VFile :=
  (childrenOf st f).find? (fun c =>
    IMAGE_EXTS.contains (jsToLower (fileExt c.path)) &&
    jsToLower (fileBase c.path) = jsToLower (fileBase f.path))

/-- The sidecar lookup shared by `readSidecarDescription` and
`readSidecarFrontmatter` (src/src/repo.ts lines 47-50 and 76-79): first
sibling with extension `md` (case-insensitive) and the exact basename. -/
def findMdSibling (st : Vault) (f : VFile) : Option VFile :=
  (childrenOf st f).find? (fun c =>
    jsToLower (fileExt c.path) = "md" && fileBase c.path = fileBase f.path)

/-- First non-empty line of a text, trimmed (src/src/repo.ts line 66). -/
def firstNonEmptyLine (c : String) : Option String :=
  ((jsLines c).find? (fun l => jsTrim l ≠ "")).map jsTrim

/-- A frontmatter field read as a non-empty trimmed string, the pattern
`typeof fm.k === "string" && fm.k.trim()` used throughout the scanner. -/
def strFieldTrim (fm : Fm) (k : String) : Option String :=
  match lookupFm fm k with
  | some (.str s) => if jsTrim s = "" then none else some (jsTrim s)
  | _ => none

/-- `readSidecarDescription` of src/src/repo.ts lines 44-71: frontmatter
`description` when present and non-blank, otherwise the trimmed first
non-empty line of the whole sidecar text. -/
def readSidecarDescription (st : Vault) (f : VFile) : Option String :=
  match findMdSibling st f with
  | none => none
  | some md =>
    match (parseFmOfContent md.content).bind (fun fm => strFieldTrim fm "description") with
    | some d => some d
    | none => firstNonEmptyLine md.content

/-- `readSidecarFrontmatter` of src/src/repo.ts lines 73-94. -/
def readSidecarFrontmatter (st : Vault) (f : VFile) : Option Fm :=
  (findMdSibling st f).bind (fun md => parseFmOfContent md.content)

/-- The scanned item (`DanceStepItem` of src/src/types.ts as populated by
`scanDanceSteps`; the scanner also attaches `danceStyle`, `playCount`,
`lastPlayedAt`). -/
structure DanceStepItem where
  path : String
  basename : String
  ext : String
  name : String
  description : Option String
  dance : Option String
  danceStyle : Option String
  classLevel : Option String
  thumbPath : Option String
  playCount : Option ℤ
  lastPlayedAt : Option DecNum
deriving DecidableEq, Repr

/-- The normalized scan root prefix of src/src/repo.ts lines 102-103. -/
def scanPref (root : Option String) : String :=
  match root with
  | none => ""
  | some r0 =>
    let r := jsTrim r0
    if r = "" then "" else if strEndsWith r "/" then r else r ++ "/"

/-- The scanner's candidate filter (src/src/repo.ts line 105): video
extension and, when a root is given, the path under the root prefix. -/
def scanCandidates (st : Vault) (root : Option String) : List VFile :=
  st.filter (fun f =>
    isVideo f && (scanPref root = "" || strStartsWith f.path (scanPref root)))

/-- One scanned item (the loop body of src/src/repo.ts lines 108-152):
path-inferred category fields, thumbnail and sidecar lookups, frontmatter
overrides, and the guarded numeric fields. -/
def scanItem (st : Vault) (root : Option String) (f : VFile) : DanceStepItem :=
  let pref := scanPref root
  let relPath := if pref = "" then f.path else strDrop f.path pref.data.length
  let parts := jsSplitChar relPath '/'
  let name0 := fileBase f.path
  let dance0 := if parts.length > 1 then some (parts.getD 0 "") else none
  let style0 := if parts.length > 2 then some (parts.getD 1 "") else none
  let cls0 := if parts.length > 3 then some (parts.getD 2 "") else none
  let thumb := findThumbFor st f
  let descr0 := readSidecarDescription st f
  let fm? := readSidecarFrontmatter st f
  let ov := fun (k : String) (d : Option String) =>
    match fm? with
    | some fm =>
      match strFieldTrim fm k with
      | some v => some v
      | none => d
    | none => d
  let name := match fm? with
    | some fm => (strFieldTrim fm "stepName").getD name0
    | none => name0
  let descr := ov "description" descr0
  let dance := ov "dance" dance0
  let danceStyle := ov "danceStyle" (ov "style" style0)
  let classLevel := ov "classLevel" (ov "class" cls0)
  let pc : Option ℤ := match fm? with
    | some fm =>
      match lookupFm fm "playCount" with
      | some (.num q) => some (max 0 (floorD q))
      | _ => none
    | none => none
  let lp : Option DecNum := match fm? with
    | some fm =>
      match lookupFm fm "lastPlayedAt" with
      | some (.num q) => some q
      | _ => none
    | none => none
  { path := f.path, basename := fileBase f.path, ext := fileExt f.path,
    name := name, description := descr, dance := dance,
    danceStyle := danceStyle, classLevel := classLevel,
    thumbPath := thumb.map (·.path), playCount := pc, lastPlayedAt := lp }

/-- Model of `Array.prototype.sort(cmp)`: a stable sort placing `a`
before `b` whenever `cmp a b ≤ 0` (the ECMAScript-guaranteed observable
behaviour for a consistent comparator). -/
def jsSortBy {α : Type} (cmp : α → α → Int) (l : List α) : List α :=
  List.insertionSort (fun a b => cmp a b ≤ 0) l

/-- `scanDanceSteps` of src/src/repo.ts lines 100-157: one item per
candidate video, sorted by `path.localeCompare`. -/
def scanDanceSteps (st : Vault) (root : Option String) : List DanceStepItem :=
  jsSortBy (fun a b => strCmp a.path b.path)
    ((scanCandidates st root).map (scanItem st root))

/-- The default applied wherever a scanned `playCount` is read
(`step.playCount ?? 0`, src/src/view.tsx line 388). -/
def displayedPlayCount (it : DanceStepItem) : ℤ :=
  it.playCount.getD 0

/-- Extension of a full path per `full.split(".").pop()` (src/src/
view.tsx line 103): after the last dot anywhere, the whole string when
there is no dot. -/
def fullExtOf (full : String) : String :=
  let i := jsLastIndexOf full '.'
  if i < 0 then full else jsSubstring full (i + 1) full.data.length

/-- Base of a full path per `full.slice(0, -(ext.length + 1))` (src/src/
view.tsx line 104), with the JS negative-index clamping. -/
def fullBaseOf (full : String) : String :=
  let e := fullExtOf full
  ⟨full.data.take (full.data.length - (e.data.length + 1))⟩

/-- The collision loop of `uniquePath` (src/src/view.tsx lines 106-112);
the fuel bounds the iteration count and, at `st.length + 1` candidates
against at most `st.length` occupied paths, is never exhausted. -/
def uniquePathAux (st : Vault) (base ext : String) : Nat → Nat → String
  | 0, i => base ++ " " ++ natDigits i ++ "." ++ ext
  | fuel + 1, i =>
    let cand := base ++ " " ++ natDigits i ++ "." ++ ext
    if (getByPath st cand).isSome then uniquePathAux st base ext fuel (i + 1)
    else cand

/-- `uniquePath` of src/src/view.tsx lines 102-113: the path itself when
free, else the first free ` 2`, ` 3`, ... suffixed variant. -/
def uniquePath (st : Vault) (full : String) : String :=
  if (getByPath st full).isSome then
    uniquePathAux st (fullBaseOf full) (fullExtOf full) (st.length + 1) 2
  else full

/-- Model of `vault.rename` (the file object keeps its content). -/
def vaultRename (st : Vault) (pOld pNew : String) : Vault :=
  st.map (fun f => if f.path = pOld then { f with path := pNew } else f)

/-- Model of `vault.create`. -/
def vaultCreate (st : Vault) (p c : String) : Vault :=
  st ++ [⟨p, c⟩]

/-- Model of `vault.modify`. -/
def vaultModify (st : Vault) (p c : String) : Vault :=
  st.map (fun f => if f.path = p then { f with content := c } else f)

/-- Model of `fileManager.trashFile`. -/
def vaultTrash (st : Vault) (p : String) : Vault :=
  st.filter (fun f => f.path ≠ p)

/-- `upsertSidecarMetadata` of src/src/repo.ts lines 159-239 as a vault
transition: silent no-op when the video path does not resolve, otherwise
the sidecar `<parent>/<basename>.md` is created or modified with the
serialized merge. -/
def upsertSidecarMetadata (st : Vault) (videoPath : String) (m : MetaPatch) : Vault :=
  match getByPath st videoPath with
  | none => st
  | some af =>
    let mdPath := parentPathOf af.path ++ "/" ++ fileBase af.path ++ ".md"
    match getByPath st mdPath with
    | some ex => vaultModify st mdPath (upsertText (some ex.content) m)
    | none => vaultCreate st mdPath (upsertText none m)

/-- The patch shape of `saveMeta` (src/src/view.tsx line 117); its alias
field is named `style`, and `cls` embeds the TS field named `class`. -/
structure SaveMetaPatch where
  stepName : Option String := none
  description : Option String := none
  dance : Option String := none
  style : Option String := none
  cls : Option String := none
  playCount : Option DecNum := none
  lastPlayedAt : Option DecNum := none
deriving DecidableEq, Repr

/-- The patch object `saveMeta` forwards to `upsertSidecarMetadata`
(src/src/view.tsx line 152): the upsert reads the properties `danceStyle`
and `classLevel`, which the saveMeta patch does not carry (its alias
field is named `style`), so those reads yield `undefined` at runtime. -/
def saveMetaToUpsert (m : SaveMetaPatch) : MetaPatch :=
  { stepName := m.stepName, description := m.description, dance := m.dance,
    danceStyle := none, cls := m.cls, classLevel := none,
    playCount := m.playCount, lastPlayedAt := m.lastPlayedAt }

/-- `saveMeta` of src/src/view.tsx lines 115-173 as a vault transition
returning the final media path: optional slug-driven rename of the video
(with collision suffixing) and conflict-guarded rename of its sidecar,
then the metadata upsert at the final path, then the guarded cleanup of
an orphaned old sidecar.  `now` models `Date.now()`, used only for the
empty-slug fallback name. -/
def saveMeta (st : Vault) (videoPath : String) (m : SaveMetaPatch) (now : Nat) :
    Vault × String :=
  let desired := jsTrim (m.stepName.getD "")
  let step1 : Vault × String :=
    if desired ≠ "" then
      match getByPath st videoPath with
      | some af =>
        let parentPath := parentPathOf af.path
        let ext := fileExt af.path
        let currentBase := fileBase af.path
        let targetSlug := if slug desired ≠ "" then slug desired
          else "video-" ++ natDigits now
        if targetSlug ≠ currentBase then
          let intended := parentPath ++ "/" ++ targetSlug ++ "." ++ ext
          let newVideoPath := uniquePath st intended
          let st1 := vaultRename st videoPath newVideoPath
          let oldMdPath := parentPath ++ "/" ++ currentBase ++ ".md"
          let newBase := jsSubstring newVideoPath
            (jsLastIndexOf newVideoPath '/' + 1) (jsLastIndexOf newVideoPath '.')
          let targetMdPath := parentPath ++ "/" ++ newBase ++ ".md"
          match getByPath st1 oldMdPath with
          | some _ =>
            if (getByPath st1 targetMdPath).isSome then (st1, newVideoPath)
            else (vaultRename st1 oldMdPath targetMdPath, newVideoPath)
          | none => (st1, newVideoPath)
        else (st, videoPath)
      | none => (st, videoPath)
    else (st, videoPath)
  let st2 := upsertSidecarMetadata step1.1 step1.2 (saveMetaToUpsert m)
  let finalPath := step1.2
  if finalPath ≠ videoPath then
    let oldMdPath := jsSubstring videoPath 0 (jsLastIndexOf videoPath '/') ++ "/" ++
      jsSubstring videoPath (jsLastIndexOf videoPath '/' + 1)
        (jsLastIndexOf videoPath '.') ++ ".md"
    let newMdPath := jsSubstring finalPath 0 (jsLastIndexOf finalPath '/') ++ "/" ++
      jsSubstring finalPath (jsLastIndexOf finalPath '/' + 1)
        (jsLastIndexOf finalPath '.') ++ ".md"
    if (getByPath st2 oldMdPath).isSome && (getByPath st2 newMdPath).isSome &&
        oldMdPath != newMdPath
    then (vaultTrash st2 oldMdPath, finalPath)
    else (st2, finalPath)
  else (st2, finalPath)

/-- `StepItem` of the react app as consumed by `filterAndSortSteps`
(src/unnamed/part_004); `cls` embeds the TS field named `class`. -/
structure StepItem where
  id : String := ""
  stepName : String
  description : Option String := none
  dance : Option String := none
  style : Option String := none
  cls : Option String := none
  addedAt : Option ℤ := none
  playCount : Option ℤ := none
deriving DecidableEq, Repr

/-- The `Filters` shape of src/unnamed/part_004 (facet value lists plus
the sort mode string; "" models an absent mode and falls back to
"recent" via `filters.sort || "recent"`). -/
structure Filters where
  classes : List String := []
  dances : List String := []
  styles : List String := []
  sort : String := ""
deriving DecidableEq, Repr

/-- The search haystack of src/unnamed/part_004 lines 30-31. -/
def stepHay (s : StepItem) : String :=
  jsToLower (s.stepName ++ " " ++ s.description.getD "" ++ " " ++
    s.dance.getD "" ++ " " ++ s.style.getD "" ++ " " ++ s.cls.getD "")

/-- The filter predicate of src/unnamed/part_004 lines 28-38 (facet
checks use JS truthiness, so an empty-string facet value also fails). -/
def passesFilters (q : String) (fl : Filters) (s : StepItem) : Bool :=
  (q = "" || strIncludes (stepHay s) q) &&
  (fl.classes.isEmpty ||
    (match s.cls with | some c => c ≠ "" && fl.classes.contains c | none => false)) &&
  (fl.dances.isEmpty ||
    (match s.dance with | some c => c ≠ "" && fl.dances.contains c | none => false)) &&
  (fl.styles.isEmpty ||
    (match s.style with | some c => c ≠ "" && fl.styles.contains c | none => false))

/-- The `az` comparator (src/unnamed/part_004 line 42). -/
def cmpAz (a b : StepItem) : Int :=
  strCmp a.stepName b.stepName

/-- The `recent` comparator (src/unnamed/part_004 lines 45-49):
`(b.addedAt || 0) - (a.addedAt || 0) || b.stepName.localeCompare(a.stepName)`. -/
def cmpRecent (a b : StepItem) : Int :=
  let d := b.addedAt.getD 0 - a.addedAt.getD 0
  if d = 0 then strCmp b.stepName a.stepName else d

/-- The `mostPlayed` comparator (src/unnamed/part_004 lines 51-53). -/
def cmpMost (a b : StepItem) : Int :=
  let d := b.playCount.getD 0 - a.playCount.getD 0
  if d = 0 then strCmp a.stepName b.stepName else d

/-- `filterAndSortSteps` of src/unnamed/part_004 lines 21-57. -/
def filterAndSortSteps (steps : List StepItem) (query : String) (fl : Filters) :
    List StepItem :=
  let q := jsToLower (jsTrim query)
  let list := steps.filter (passesFilters q fl)
  let srt := if fl.sort = "" then "recent" else fl.sort
  if srt = "az" then jsSortBy cmpAz list
  else if srt = "recent" then jsSortBy cmpRecent list
  else if srt = "mostPlayed" then jsSortBy cmpMost list
  else list

/-- The sidecar path paired with a media path, `<parent>/<basename>.md`
(the expression of src/src/repo.ts line 168 as a function of the path). -/
def sidecarPathOf (p : String) : String :=
  parentPathOf p ++ "/" ++ fileBase p ++ ".md"

/-- The recognized sidecar fields named by the specification. -/
def recognizedKeys : List String :=
  ["stepName", "description", "dance", "style", "danceStyle",
   "class", "playCount", "lastPlayedAt"]

/-- Absence of line terminators in a value (the well-formedness under
which a serialized frontmatter line stays one line). -/
def nlFree (s : String) : Bool :=
  s.data.all (fun c => c ≠ '\n' && c ≠ '\r')

/-- A string free of path separators. -/
def slashFree (s : String) : Bool :=
  !s.data.contains '/'

/-- A string free of dots. -/
def dotFree (s : String) : Bool :=
  !s.data.contains '.'

/-- The `az` order of the claim: names ascending under the compare. -/
def azLE (a b : StepItem) : Prop :=
  strCmp a.stepName b.stepName ≤ 0

/-- The `recent` order of the claim: added timestamp descending, ties by
name descending. -/
def recentLE (a b : StepItem) : Prop :=
  b.addedAt.getD 0 < a.addedAt.getD 0 ∨
    (b.addedAt.getD 0 = a.addedAt.getD 0 ∧ strCmp b.stepName a.stepName ≤ 0)

/-- The `mostPlayed` order of the claim: play count descending, ties by
name ascending. -/
def mostLE (a b : StepItem) : Prop :=
  b.playCount.getD 0 < a.playCount.getD 0 ∨
    (b.playCount.getD 0 = a.playCount.getD 0 ∧ strCmp a.stepName b.stepName ≤ 0)

/-- The path order of the scanned list (ascending `localeCompare`). -/
def pathLE (a b : DanceStepItem) : Prop :=
  strCmp a.path b.path ≤ 0

/-- C1, counterexample: performing the saveMeta-plus-upsert operation
twice with the same patch on the same vault yields the same final media
path but a different final sidecar text — the second call prepends a
second managed tag line, so the operation is not idempotent on sidecar
content. -/
theorem c1_cex :
    (saveMeta [⟨"Dance/a.mp4", "v"⟩] "Dance/a.mp4" { stepName := some "a" } 0).2 =
      (saveMeta (saveMeta [⟨"Dance/a.mp4", "v"⟩] "Dance/a.mp4"
        { stepName := some "a" } 0).1 "Dance/a.mp4" { stepName := some "a" } 0).2 ∧
    (getByPath (saveMeta (saveMeta [⟨"Dance/a.mp4", "v"⟩] "Dance/a.mp4"
        { stepName := some "a" } 0).1 "Dance/a.mp4"
        { stepName := some "a" } 0).1 "Dance/a.md").map VFile.content ≠
      (getByPath (saveMeta [⟨"Dance/a.mp4", "v"⟩] "Dance/a.mp4"
        { stepName := some "a" } 0).1 "Dance/a.md").map VFile.content := by
  decide

/-- C2, counterexample: a patch providing the `class` alias writes only
the `class` key; a pre-existing `classLevel` key keeps its old value, and
the scanner reads that stale value back (classLevel overrides class), so
reading back the `classLevel` alias does not return the updated value. -/
theorem c2_cex :
    lookupFm (upsertFm (some "---\nclassLevel: Beginner\n---\n")
        { cls := some "Advanced" }) "class" = some (.str "Advanced") ∧
    lookupFm (upsertFm (some "---\nclassLevel: Beginner\n---\n")
        { cls := some "Advanced" }) "classLevel" = some (.str "Beginner") ∧
    (scanItem (upsertSidecarMetadata
        [⟨"d/a.mp4", "v"⟩, ⟨"d/a.md", "---\nclassLevel: Beginner\n---\n"⟩]
        "d/a.mp4" { cls := some "Advanced" }) none ⟨"d/a.mp4", "v"⟩).classLevel =
      some "Beginner" := by
  decide

/-- C4, counterexample: a file with extension `avi` is accepted by the
scanner's `isVideo` filter (so it is in the candidate set), while the
organize/import intake guard rejects it — the reverse of the claimed
split. -/
theorem c4_cex :
    isVideo ⟨"d/clip.avi", "v"⟩ = true ∧
    scanCandidates [⟨"d/clip.avi", "v"⟩] none = [⟨"d/clip.avi", "v"⟩] ∧
    organizeAccepts ⟨"d/clip.avi", "v"⟩ = false := by
  decide

/-- C5, counterexample: the unrecognized frontmatter key `tags` is not
preserved by an upsert — the source explicitly deletes it — so
preservation does not hold for every unrecognized key. -/
theorem c5_cex :
    lookupFm (parseSidecar "---\ntags: keepme\nstepName: a\n---\n").1 "tags" =
      some (.str "keepme") ∧
    lookupFm (upsertFm (some "---\ntags: keepme\nstepName: a\n---\n")
        { description := some "x" }) "tags" = none ∧
    ("tags: keepme" ∈ renderFmLines (upsertFm
        (some "---\ntags: keepme\nstepName: a\n---\n")
        { description := some "x" })) = False := by
  decide

/-- C6, counterexample: upserting a sidecar that has a frontmatter block
and a prior managed line does not replace that line — the parsed body
starts with a blank line, so the prior tag line survives below the new
one — and the emitted tag is built by `normalizeTag`, which keeps the
case of the dance value instead of lowercasing it as slugification
would. -/
theorem c6_cex :
    upsertText (some "---\ndance: Salsa\n---\n#DanceLibrary #Old\nBody text")
        { dance := some "Salsa" } =
      "---\ndance: Salsa\n---\n\n#DanceLibrary #Salsa\n\n#DanceLibrary #Old\nBody text" ∧
    "#DanceLibrary #Salsa" ≠ "#DanceLibrary #" ++ slug "Salsa" ∧
    (jsLines (upsertText (some "---\ndance: Salsa\n---\n#DanceLibrary #Old\nBody text")
        { dance := some "Salsa" })).getD 6 "" = "#DanceLibrary #Old" := by
  decide

/-- C7, counterexample: two enumerations of the same unchanged vault (a
permutation) produce different scan results — the thumbnail lookup takes
the first same-basename sibling image in enumeration order — so the item
lists are not independent of the file-system enumeration order. -/
theorem c7_cex :
    List.Perm [(⟨"d/x.mp4", "v"⟩ : VFile), ⟨"d/x.png", "i1"⟩, ⟨"d/x.jpg", "i2"⟩]
      [⟨"d/x.mp4", "v"⟩, ⟨"d/x.jpg", "i2"⟩, ⟨"d/x.png", "i1"⟩] ∧
    scanDanceSteps [⟨"d/x.mp4", "v"⟩, ⟨"d/x.png", "i1"⟩, ⟨"d/x.jpg", "i2"⟩] none ≠
      scanDanceSteps [⟨"d/x.mp4", "v"⟩, ⟨"d/x.jpg", "i2"⟩, ⟨"d/x.png", "i1"⟩] none := by
  decide

/-- C4, amended: the scanner's candidate set is exactly the files whose
extension, compared case-insensitively, is one of mp4, webm, mov, m4v,
ogg, avi (intersected with the root prefix when one is given); the
organize/import intake guard instead accepts exactly mp4, mov, webm,
m4v, ogg — so avi is accepted by the scanner and rejected by the intake
path, the reverse of the claimed split. -/
theorem c4_amended (st : Vault) (root : Option String) (f : VFile) :
    (f ∈ scanCandidates st root ↔ f ∈ st ∧
      jsToLower (fileExt f.path) ∈ ["mp4", "webm", "mov", "m4v", "ogg", "avi"] ∧
      (scanPref root = "" ∨ strStartsWith f.path (scanPref root) = true)) ∧
    (organizeAccepts f = true ↔
      jsToLower (fileExt f.path) ∈ ["mp4", "mov", "webm", "m4v", "ogg"]) := by
  constructor
  · simp only [scanCandidates, List.mem_filter, isVideo, VIDEO_EXTS, Bool.and_eq_true,
      Bool.or_eq_true, decide_eq_true_eq, List.elem_iff, and_assoc]
  · simp only [organizeAccepts, ORGANIZE_VIDEO_EXTS, List.elem_iff,
      decide_eq_true_eq]

/-- C4, witness for the amended theorem at a concrete file. -/
theorem c4_amended_witness :
    (⟨"d/b.mp4", "v"⟩ : VFile) ∈ scanCandidates [⟨"d/b.mp4", "v"⟩] none ∧
    organizeAccepts (⟨"d/b.mp4", "v"⟩ : VFile) = true := by
  refine ⟨((c4_amended [⟨"d/b.mp4", "v"⟩] none ⟨"d/b.mp4", "v"⟩).1).mpr (by decide),
    ((c4_amended [⟨"d/b.mp4", "v"⟩] none ⟨"d/b.mp4", "v"⟩).2).mpr (by decide)⟩

theorem lexCmp_self : ∀ l : List Char, lexCmp l l = 0
  | [] => rfl
  | c :: rest => by simp [lexCmp, lexCmp_self rest]

theorem lexCmp_flip : ∀ a b : List Char, lexCmp b a = -lexCmp a b
  | [], [] => rfl
  | [], _ :: _ => rfl
  | _ :: _, [] => rfl
  | a :: as, b :: bs => by
    by_cases h1 : a < b
    · have h2 : ¬ b < a := not_lt_of_gt h1
      simp [lexCmp, h1, h2]
    · by_cases h2 : b < a
      · simp [lexCmp, h1, h2]
      · simp [lexCmp, h1, h2, lexCmp_flip as bs]

theorem lexCmp_eq_zero_iff : ∀ a b : List Char, lexCmp a b = 0 ↔ a = b
  | [], [] => by simp [lexCmp]
  | [], _ :: _ => by simp [lexCmp]
  | _ :: _, [] => by simp [lexCmp]
  | a :: as, b :: bs => by
    by_cases h1 : a < b
    · simp only [lexCmp, if_pos h1]
      constructor
      · intro h; omega
      · intro h
        cases h
        exact absurd h1 (lt_irrefl a)
    · by_cases h2 : b < a
      · simp only [lexCmp, if_neg h1, if_pos h2]
        constructor
        · intro h; omega
        · intro h
          cases h
          exact absurd h2 (lt_irrefl a)
      · have hab : a = b := le_antisymm (not_lt.mp h2) (not_lt.mp h1)
        subst hab
        simp [lexCmp, lexCmp_eq_zero_iff as bs]

theorem lexCmp_le_trans : ∀ a b c : List Char,
    lexCmp a b ≤ 0 → lexCmp b c ≤ 0 → lexCmp a c ≤ 0
  | [], b, c, _, _ => by
    cases c <;> simp [lexCmp]
  | _ :: _, [], _, h1, _ => by
    simp [lexCmp] at h1
  | _ :: _, _ :: _, [], _, h2 => by
    simp [lexCmp] at h2
  | x :: xs, y :: ys, z :: zs, h1, h2 => by
    by_cases hxy : x < y
    · by_cases hyz : y < z
      · simp [lexCmp, lt_trans hxy hyz]
      · by_cases hzy : z < y
        · simp [lexCmp, hyz, hzy] at h2
        · have : y = z := le_antisymm (not_lt.mp hzy) (not_lt.mp hyz)
          subst this
          simp [lexCmp, hxy]
    · by_cases hyx : y < x
      · simp [lexCmp, hxy, hyx] at h1
      · have hxy2 : x = y := le_antisymm (not_lt.mp hyx) (not_lt.mp hxy)
        subst hxy2
        simp only [lexCmp, if_neg hxy, if_neg hyx] at h1
        by_cases hyz : x < z
        · simp [lexCmp, hyz]
        · by_cases hzy : z < x
          · simp only [lexCmp, if_neg hyz, if_pos hzy] at h2
            omega
          · have : x = z := le_antisymm (not_lt.mp hzy) (not_lt.mp hyz)
            subst this
            simp only [lexCmp, if_neg hyz, lt_irrefl, if_neg hzy] at h2 ⊢
            exact lexCmp_le_trans xs ys zs h1 h2

theorem strCmp_le_total (a b : String) : strCmp a b ≤ 0 ∨ strCmp b a ≤ 0 := by
  unfold strCmp
  rw [lexCmp_flip]
  omega

theorem strCmp_le_trans {a b c : String} (h1 : strCmp a b ≤ 0) (h2 : strCmp b c ≤ 0) :
    strCmp a c ≤ 0 :=
  lexCmp_le_trans a.data b.data c.data h1 h2

theorem strCmp_le_antisymm {a b : String} (h1 : strCmp a b ≤ 0) (h2 : strCmp b a ≤ 0) :
    a = b := by
  unfold strCmp at h1 h2
  rw [lexCmp_flip] at h2
  exact String.ext ((lexCmp_eq_zero_iff a.data b.data).mp (by omega))

theorem cmpRecent_le_iff (a b : StepItem) : cmpRecent a b ≤ 0 ↔ recentLE a b := by
  simp only [cmpRecent, recentLE]
  by_cases h : b.addedAt.getD 0 - a.addedAt.getD 0 = 0
  · rw [if_pos h]
    constructor
    · intro hcmp
      right
      exact ⟨by omega, hcmp⟩
    · intro hr
      rcases hr with hlt | ⟨_, hs⟩
      · omega
      · exact hs
  · rw [if_neg h]
    constructor
    · intro hcmp; left; omega
    · intro hr
      rcases hr with hlt | ⟨heq, _⟩
      · omega
      · omega

theorem cmpMost_le_iff (a b : StepItem) : cmpMost a b ≤ 0 ↔ mostLE a b := by
  simp only [cmpMost, mostLE]
  by_cases h : b.playCount.getD 0 - a.playCount.getD 0 = 0
  · rw [if_pos h]
    constructor
    · intro hcmp
      right
      exact ⟨by omega, hcmp⟩
    · intro hr
      rcases hr with hlt | ⟨_, hs⟩
      · omega
      · exact hs
  · rw [if_neg h]
    constructor
    · intro hcmp; left; omega
    · intro hr
      rcases hr with hlt | ⟨heq, _⟩
      · omega
      · omega

theorem recentLE_total (a b : StepItem) : recentLE a b ∨ recentLE b a := by
  unfold recentLE
  rcases lt_trichotomy (a.addedAt.getD 0) (b.addedAt.getD 0) with h | h | h
  · right; left; omega
  · rcases strCmp_le_total b.stepName a.stepName with hs | hs
    · left; right; exact ⟨h.symm, hs⟩
    · right; right; exact ⟨h, hs⟩
  · left; left; omega

theorem recentLE_trans {a b c : StepItem}
    (h1 : recentLE a b) (h2 : recentLE b c) : recentLE a c := by
  unfold recentLE at h1 h2 ⊢
  rcases h1 with h1 | ⟨e1, s1⟩
  · rcases h2 with h2 | ⟨e2, _⟩
    · left; omega
    · left; omega
  · rcases h2 with h2 | ⟨e2, s2⟩
    · left; omega
    · right; exact ⟨by omega, strCmp_le_trans s2 s1⟩

theorem mostLE_total (a b : StepItem) : mostLE a b ∨ mostLE b a := by
  unfold mostLE
  rcases lt_trichotomy (a.playCount.getD 0) (b.playCount.getD 0) with h | h | h
  · right; left; omega
  · rcases strCmp_le_total a.stepName b.stepName with hs | hs
    · left; right; exact ⟨h.symm, hs⟩
    · right; right; exact ⟨h, hs⟩
  · left; left; omega

theorem mostLE_trans {a b c : StepItem}
    (h1 : mostLE a b) (h2 : mostLE b c) : mostLE a c := by
  unfold mostLE at h1 h2 ⊢
  rcases h1 with h1 | ⟨e1, s1⟩
  · rcases h2 with h2 | ⟨e2, _⟩
    · left; omega
    · left; omega
  · rcases h2 with h2 | ⟨e2, s2⟩
    · left; omega
    · right; exact ⟨by omega, strCmp_le_trans s1 s2⟩

theorem sorted_jsSortBy_az (l : List StepItem) :
    (jsSortBy cmpAz l).Sorted azLE := by
  haveI : IsTotal StepItem (fun a b => cmpAz a b ≤ 0) :=
    ⟨fun a b => strCmp_le_total a.stepName b.stepName⟩
  haveI : IsTrans StepItem (fun a b => cmpAz a b ≤ 0) :=
    ⟨fun _ _ _ h1 h2 => strCmp_le_trans h1 h2⟩
  exact List.Pairwise.imp (fun h => h)
    (List.sorted_insertionSort (fun a b => cmpAz a b ≤ 0) l)

theorem sorted_jsSortBy_recent (l : List StepItem) :
    (jsSortBy cmpRecent l).Sorted recentLE := by
  haveI : IsTotal StepItem (fun a b => cmpRecent a b ≤ 0) :=
    ⟨fun a b => by
      rcases recentLE_total a b with h | h
      · exact Or.inl ((cmpRecent_le_iff a b).mpr h)
      · exact Or.inr ((cmpRecent_le_iff b a).mpr h)⟩
  haveI : IsTrans StepItem (fun a b => cmpRecent a b ≤ 0) :=
    ⟨fun a b c h1 h2 => (cmpRecent_le_iff a c).mpr
      (recentLE_trans ((cmpRecent_le_iff a b).mp h1) ((cmpRecent_le_iff b c).mp h2))⟩
  exact List.Pairwise.imp (fun h => (cmpRecent_le_iff _ _).mp h)
    (List.sorted_insertionSort (fun a b => cmpRecent a b ≤ 0) l)

theorem sorted_jsSortBy_most (l : List StepItem) :
    (jsSortBy cmpMost l).Sorted mostLE := by
  haveI : IsTotal StepItem (fun a b => cmpMost a b ≤ 0) :=
    ⟨fun a b => by
      rcases mostLE_total a b with h | h
      · exact Or.inl ((cmpMost_le_iff a b).mpr h)
      · exact Or.inr ((cmpMost_le_iff b a).mpr h)⟩
  haveI : IsTrans StepItem (fun a b => cmpMost a b ≤ 0) :=
    ⟨fun a b c h1 h2 => (cmpMost_le_iff a c).mpr
      (mostLE_trans ((cmpMost_le_iff a b).mp h1) ((cmpMost_le_iff b c).mp h2))⟩
  exact List.Pairwise.imp (fun h => (cmpMost_le_iff _ _).mp h)
    (List.sorted_insertionSort (fun a b => cmpMost a b ≤ 0) l)

/-- C8: for every input list, query and filters, the output of
filterAndSortSteps is ordered as the mode dictates — `az` by name
ascending under the compare, `recent` by added timestamp descending with
ties by name descending, `mostPlayed` by play count descending with ties
by name ascending — and is a permutation of the filtered input. -/
theorem c8_filterAndSortSteps_order (steps : List StepItem) (q : String) (fl : Filters) :
    (fl.sort = "az" → (filterAndSortSteps steps q fl).Sorted azLE) ∧
    ((fl.sort = "recent" ∨ fl.sort = "") →
      (filterAndSortSteps steps q fl).Sorted recentLE) ∧
    (fl.sort = "mostPlayed" → (filterAndSortSteps steps q fl).Sorted mostLE) ∧
    (filterAndSortSteps steps q fl).Perm
      (steps.filter (passesFilters (jsToLower (jsTrim q)) fl)) := by
  refine ⟨?_, ?_, ?_, ?_⟩
  · intro h
    simp only [filterAndSortSteps, h]
    norm_num
    exact sorted_jsSortBy_az _
  · intro h
    rcases h with h | h <;> simp only [filterAndSortSteps, h] <;> norm_num <;>
      exact sorted_jsSortBy_recent _
  · intro h
    simp only [filterAndSortSteps, h]
    norm_num
    exact sorted_jsSortBy_most _
  · simp only [filterAndSortSteps, jsSortBy]
    repeat' split
    all_goals first
      | exact List.perm_insertionSort _ _
      | exact List.Perm.refl _

/-- C8, witness at a concrete input: the amended ordering facts at a
two-element list in mode az. -/
theorem c8_witness :
    (filterAndSortSteps
      [{ stepName := "b", addedAt := some 1 }, { stepName := "a", addedAt := some 2 }]
      "" { sort := "az" }).Sorted azLE :=
  (c8_filterAndSortSteps_order
    [{ stepName := "b", addedAt := some 1 }, { stepName := "a", addedAt := some 2 }]
    "" { sort := "az" }).1 rfl

theorem scanItem_path (st : Vault) (root : Option String) (f : VFile) :
    (scanItem st root f).path = f.path := rfl

theorem sorted_scanDanceSteps (st : Vault) (root : Option String) :
    (scanDanceSteps st root).Sorted pathLE := by
  simp only [scanDanceSteps, jsSortBy]
  haveI : IsTotal DanceStepItem (fun a b => strCmp a.path b.path ≤ 0) :=
    ⟨fun a b => strCmp_le_total a.path b.path⟩
  haveI : IsTrans DanceStepItem (fun a b => strCmp a.path b.path ≤ 0) :=
    ⟨fun _ _ _ h1 h2 => strCmp_le_trans h1 h2⟩
  exact List.Pairwise.imp (fun h => h)
    (List.sorted_insertionSort (fun a b : DanceStepItem => strCmp a.path b.path ≤ 0) _)

theorem scan_paths_perm (st : Vault) (root : Option String) :
    ((scanDanceSteps st root).map DanceStepItem.path).Perm
      ((scanCandidates st root).map VFile.path) := by
  have h1 : (scanDanceSteps st root).Perm
      ((scanCandidates st root).map (scanItem st root)) :=
    List.perm_insertionSort _ _
  have h2 := h1.map DanceStepItem.path
  rw [List.map_map] at h2
  have h3 : (DanceStepItem.path ∘ scanItem st root) = VFile.path :=
    funext fun f => scanItem_path st root f
  rw [h3] at h2
  exact h2

/-- C7, amended: every scan list is sorted by path ascending and its
paths are pairwise distinct (given distinct input paths), and the path
sequence — hence the order — is the same for every enumeration order of
the same vault; but the full item lists can differ between enumeration
orders (the thumbnail and sidecar sibling lookups take the first match
in enumeration order), so list identity holds for the paths and the
order, not for whole items. -/
theorem c7_amended (st : Vault) (root : Option String)
    (hd : (st.map VFile.path).Nodup) :
    (scanDanceSteps st root).Sorted pathLE ∧
    ((scanDanceSteps st root).map DanceStepItem.path).Nodup ∧
    (∀ st2, st.Perm st2 →
      (scanDanceSteps st2 root).map DanceStepItem.path =
        (scanDanceSteps st root).map DanceStepItem.path) := by
  have hsub : ∀ s : Vault,
      ((scanCandidates s root).map VFile.path).Sublist (s.map VFile.path) :=
    fun s => (List.filter_sublist _).map _
  refine ⟨sorted_scanDanceSteps st root, ?_, ?_⟩
  · exact ((scan_paths_perm st root).nodup_iff).mpr ((hsub st).nodup hd)
  · intro st2 hperm
    have hs1 : ((scanDanceSteps st root).map DanceStepItem.path).Pairwise
        (fun a b => strCmp a b ≤ 0) :=
      List.pairwise_map.mpr (sorted_scanDanceSteps st root)
    have hs2 : ((scanDanceSteps st2 root).map DanceStepItem.path).Pairwise
        (fun a b => strCmp a b ≤ 0) :=
      List.pairwise_map.mpr (sorted_scanDanceSteps st2 root)
    have hp : ((scanDanceSteps st2 root).map DanceStepItem.path).Perm
        ((scanDanceSteps st root).map DanceStepItem.path) := by
      refine ((scan_paths_perm st2 root).trans ?_).trans (scan_paths_perm st root).symm
      exact ((hperm.symm.filter _).map _)
    haveI : IsAntisymm String (fun a b => strCmp a b ≤ 0) :=
      ⟨fun a b h1 h2 => strCmp_le_antisymm h1 h2⟩
    exact List.eq_of_perm_of_sorted hp hs2 hs1

/-- C7, witness for the amended theorem at a concrete two-file vault. -/
theorem c7_amended_witness :
    (scanDanceSteps [⟨"d/b.mp4", "v"⟩, ⟨"d/a.mp4", "w"⟩] none).Sorted pathLE ∧
    ((scanDanceSteps [⟨"d/b.mp4", "v"⟩, ⟨"d/a.mp4", "w"⟩] none).map
      DanceStepItem.path).Nodup ∧
    (scanDanceSteps [⟨"d/a.mp4", "w"⟩, ⟨"d/b.mp4", "v"⟩] none).map
        DanceStepItem.path =
      (scanDanceSteps [⟨"d/b.mp4", "v"⟩, ⟨"d/a.mp4", "w"⟩] none).map
        DanceStepItem.path := by
  have h := c7_amended [⟨"d/b.mp4", "v"⟩, ⟨"d/a.mp4", "w"⟩] none (by decide)
  exact ⟨h.1, h.2.1, h.2.2 [⟨"d/a.mp4", "w"⟩, ⟨"d/b.mp4", "v"⟩] (by decide)⟩

theorem lookupFm_setVal_self : ∀ (fm : Fm) (k : String) (v : YVal),
    lookupFm (setVal fm k v) k = some v
  | [], k, v => by simp [setVal, lookupFm]
  | (k1, w) :: rest, k, v => by
    by_cases h : k1 = k
    · simp [setVal, lookupFm, h]
    · simp [setVal, lookupFm, h, lookupFm_setVal_self rest k v]

theorem lookupFm_setVal_ne : ∀ (fm : Fm) (k k2 : String) (v : YVal), k2 ≠ k →
    lookupFm (setVal fm k v) k2 = lookupFm fm k2
  | [], k, k2, v, h => by
    simp only [setVal, lookupFm]
    rw [if_neg (fun e => h e.symm)]
  | (k1, w) :: rest, k, k2, v, h => by
    by_cases h1 : k1 = k
    · subst h1
      simp only [setVal, if_pos rfl, lookupFm]
      rw [if_neg (fun e => h e.symm), if_neg (fun e => h e.symm)]
    · simp only [setVal, if_neg h1, lookupFm]
      by_cases h2 : k1 = k2
      · rw [if_pos h2, if_pos h2]
      · rw [if_neg h2, if_neg h2, lookupFm_setVal_ne rest k k2 v h]

theorem setStrOpt_none (fm : Fm) (k : String) : setStrOpt fm k none = fm := rfl

theorem lookupFm_setStrOpt_ne (fm : Fm) (k k2 : String) (o : Option String)
    (h : k2 ≠ k) : lookupFm (setStrOpt fm k o) k2 = lookupFm fm k2 := by
  cases o
  · rfl
  · exact lookupFm_setVal_ne fm k k2 _ h

theorem lookupFm_setStyleAlias_ne (fm : Fm) (k2 : String) (o : Option String)
    (h1 : k2 ≠ "style") (h2 : k2 ≠ "danceStyle") :
    lookupFm (setStyleAlias fm o) k2 = lookupFm fm k2 := by
  cases o
  · rfl
  · simp only [setStyleAlias]
    rw [lookupFm_setVal_ne _ _ _ _ h2, lookupFm_setVal_ne _ _ _ _ h1]

theorem lookupFm_setPlayCountOpt_ne (fm : Fm) (k2 : String) (o : Option DecNum)
    (h : k2 ≠ "playCount") :
    lookupFm (setPlayCountOpt fm o) k2 = lookupFm fm k2 := by
  cases o
  · rfl
  · exact lookupFm_setVal_ne fm _ k2 _ h

theorem lookupFm_setLastPlayedOpt_ne (fm : Fm) (k2 : String) (o : Option DecNum)
    (h : k2 ≠ "lastPlayedAt") :
    lookupFm (setLastPlayedOpt fm o) k2 = lookupFm fm k2 := by
  cases o
  · rfl
  · exact lookupFm_setVal_ne fm _ k2 _ h

theorem applyMeta_lookup_other (fm : Fm) (m : MetaPatch) (k : String)
    (h : k ∉ recognizedKeys) :
    lookupFm (applyMeta fm m) k = lookupFm fm k := by
  simp only [recognizedKeys, List.mem_cons, List.not_mem_nil, or_false] at h
  push_neg at h
  obtain ⟨h1, h2, h3, h4, h5, h6, h7, h8⟩ := h
  simp only [applyMeta]
  rw [lookupFm_setLastPlayedOpt_ne _ _ _ h8, lookupFm_setPlayCountOpt_ne _ _ _ h7,
    lookupFm_setStrOpt_ne _ _ _ _ h6, lookupFm_setStyleAlias_ne _ _ _ h4 h5,
    lookupFm_setStrOpt_ne _ _ _ _ h3, lookupFm_setStrOpt_ne _ _ _ _ h2,
    lookupFm_setStrOpt_ne _ _ _ _ h1]

theorem applyMeta_lookup_dance (fm : Fm) (m : MetaPatch) :
    lookupFm (applyMeta fm m) "dance" =
      (match m.dance with
        | some d => some (.str d)
        | none => lookupFm fm "dance") := by
  simp only [applyMeta]
  rw [lookupFm_setLastPlayedOpt_ne _ _ _ (by decide),
    lookupFm_setPlayCountOpt_ne _ _ _ (by decide),
    lookupFm_setStrOpt_ne _ _ _ _ (by decide),
    lookupFm_setStyleAlias_ne _ _ _ (by decide) (by decide)]
  cases m.dance
  · rw [setStrOpt_none, lookupFm_setStrOpt_ne _ _ _ _ (by decide),
      lookupFm_setStrOpt_ne _ _ _ _ (by decide)]
  · exact lookupFm_setVal_self _ _ _

/-- C2, amended: a provided `danceStyle` writes both the `style` and
`danceStyle` keys with the patch value, but a provided `class` (or
`classLevel`) writes only the `class` key — the `classLevel` key is never
touched by a patch, so a stale `classLevel` in the sidecar keeps its old
value and wins on read-back. -/
theorem c2_amended (fm : Fm) (m : MetaPatch) :
    (∀ v, m.danceStyle = some v →
      lookupFm (applyMeta fm m) "style" = some (.str v) ∧
      lookupFm (applyMeta fm m) "danceStyle" = some (.str v)) ∧
    (∀ v, m.cls.orElse (fun _ => m.classLevel) = some v →
      lookupFm (applyMeta fm m) "class" = some (.str v)) ∧
    lookupFm (applyMeta fm m) "classLevel" = lookupFm fm "classLevel" := by
  refine ⟨?_, ?_, ?_⟩
  · intro v hv
    constructor
    · simp only [applyMeta]
      rw [lookupFm_setLastPlayedOpt_ne _ _ _ (by decide),
        lookupFm_setPlayCountOpt_ne _ _ _ (by decide),
        lookupFm_setStrOpt_ne _ _ _ _ (by decide), hv]
      simp only [setStyleAlias]
      rw [lookupFm_setVal_ne _ _ _ _ (by decide)]
      exact lookupFm_setVal_self _ _ _
    · simp only [applyMeta]
      rw [lookupFm_setLastPlayedOpt_ne _ _ _ (by decide),
        lookupFm_setPlayCountOpt_ne _ _ _ (by decide),
        lookupFm_setStrOpt_ne _ _ _ _ (by decide), hv]
      simp only [setStyleAlias]
      exact lookupFm_setVal_self _ _ _
  · intro v hv
    simp only [applyMeta]
    rw [lookupFm_setLastPlayedOpt_ne _ _ _ (by decide),
      lookupFm_setPlayCountOpt_ne _ _ _ (by decide), hv]
    exact lookupFm_setVal_self _ _ _
  · exact applyMeta_lookup_other fm m "classLevel" (by decide)

/-- C2, witness for the amended theorem at a concrete patch. -/
theorem c2_amended_witness :
    lookupFm (applyMeta [("classLevel", .str "Beginner")]
      { danceStyle := some "On1", cls := some "Advanced" }) "style" =
        some (.str "On1") ∧
    lookupFm (applyMeta [("classLevel", .str "Beginner")]
      { danceStyle := some "On1", cls := some "Advanced" }) "danceStyle" =
        some (.str "On1") ∧
    lookupFm (applyMeta [("classLevel", .str "Beginner")]
      { danceStyle := some "On1", cls := some "Advanced" }) "class" =
        some (.str "Advanced") ∧
    lookupFm (applyMeta [("classLevel", .str "Beginner")]
      { danceStyle := some "On1", cls := some "Advanced" }) "classLevel" =
        some (.str "Beginner") := by
  have h := c2_amended [("classLevel", .str "Beginner")]
    { danceStyle := some "On1", cls := some "Advanced" }
  refine ⟨(h.1 "On1" rfl).1, (h.1 "On1" rfl).2, h.2.1 "Advanced" rfl, ?_⟩
  rw [h.2.2]
  rfl

theorem lookupFm_mem : ∀ (fm : Fm) (k : String) (v : YVal),
    lookupFm fm k = some v → (k, v) ∈ fm
  | [], k, v, h => by simp [lookupFm] at h
  | (k1, w) :: rest, k, v, h => by
    by_cases h1 : k1 = k
    · subst h1
      simp only [lookupFm, eq_self_iff_true, if_true, Option.some_inj] at h
      subst h
      exact List.mem_cons_self _ _
    · simp only [lookupFm, if_neg h1] at h
      exact List.mem_cons_of_mem _ (lookupFm_mem rest k v h)

theorem mem_setVal_of_ne : ∀ (fm : Fm) (k : String) (v : YVal) (k2 : String)
    (v2 : YVal), k2 ≠ k → (k2, v2) ∈ fm → (k2, v2) ∈ setVal fm k v
  | [], k, v, k2, v2, _, h => by simp at h
  | (k1, w) :: rest, k, v, k2, v2, hne, h => by
    rcases List.mem_cons.mp h with h | h
    · by_cases h1 : k1 = k
      · subst h1
        cases h
        exact absurd rfl hne
      · simp only [setVal, if_neg h1]
        exact h ▸ List.mem_cons_self _ _
    · by_cases h1 : k1 = k
      · simp only [setVal, if_pos h1]
        exact List.mem_cons_of_mem _ h
      · simp only [setVal, if_neg h1]
        exact List.mem_cons_of_mem _ (mem_setVal_of_ne rest k v k2 v2 hne h)

theorem mem_setStrOpt_of_ne (fm : Fm) (k : String) (o : Option String)
    (k2 : String) (v2 : YVal) (hne : k2 ≠ k) (h : (k2, v2) ∈ fm) :
    (k2, v2) ∈ setStrOpt fm k o := by
  cases o
  · exact h
  · exact mem_setVal_of_ne fm k _ k2 v2 hne h

theorem mem_setStyleAlias_of_ne (fm : Fm) (o : Option String) (k2 : String)
    (v2 : YVal) (h1 : k2 ≠ "style") (h2 : k2 ≠ "danceStyle")
    (h : (k2, v2) ∈ fm) : (k2, v2) ∈ setStyleAlias fm o := by
  cases o
  · exact h
  · exact mem_setVal_of_ne _ _ _ _ _ h2 (mem_setVal_of_ne _ _ _ _ _ h1 h)

theorem mem_setPlayCountOpt_of_ne (fm : Fm) (o : Option DecNum) (k2 : String)
    (v2 : YVal) (hne : k2 ≠ "playCount") (h : (k2, v2) ∈ fm) :
    (k2, v2) ∈ setPlayCountOpt fm o := by
  cases o
  · exact h
  · exact mem_setVal_of_ne _ _ _ _ _ hne h

theorem mem_setLastPlayedOpt_of_ne (fm : Fm) (o : Option DecNum) (k2 : String)
    (v2 : YVal) (hne : k2 ≠ "lastPlayedAt") (h : (k2, v2) ∈ fm) :
    (k2, v2) ∈ setLastPlayedOpt fm o := by
  cases o
  · exact h
  · exact mem_setVal_of_ne _ _ _ _ _ hne h

theorem mem_delKey_of_ne : ∀ (fm : Fm) (k k2 : String) (v2 : YVal), k2 ≠ k →
    (k2, v2) ∈ fm → (k2, v2) ∈ delKey fm k
  | [], k, k2, v2, _, h => by simp at h
  | (k1, w) :: rest, k, k2, v2, hne, h => by
    rcases List.mem_cons.mp h with h | h
    · have h1 : k1 ≠ k := by
        cases h
        exact hne
      simp only [delKey, if_neg h1]
      exact h ▸ List.mem_cons_self _ _
    · by_cases h1 : k1 = k
      · simp only [delKey, if_pos h1]
        exact mem_delKey_of_ne rest k k2 v2 hne h
      · simp only [delKey, if_neg h1]
        exact List.mem_cons_of_mem _ (mem_delKey_of_ne rest k k2 v2 hne h)

theorem mem_applyMeta_of_unrecognized (fm : Fm) (m : MetaPatch) (k : String)
    (v : YVal) (hk : k ∉ recognizedKeys) (h : (k, v) ∈ fm) :
    (k, v) ∈ applyMeta fm m := by
  simp only [recognizedKeys, List.mem_cons, List.not_mem_nil, or_false] at hk
  push_neg at hk
  obtain ⟨h1, h2, h3, h4, h5, h6, h7, h8⟩ := hk
  exact mem_setLastPlayedOpt_of_ne _ _ _ _ h8
    (mem_setPlayCountOpt_of_ne _ _ _ _ h7
      (mem_setStrOpt_of_ne _ _ _ _ _ h6
        (mem_setStyleAlias_of_ne _ _ _ _ h4 h5
          (mem_setStrOpt_of_ne _ _ _ _ _ h3
            (mem_setStrOpt_of_ne _ _ _ _ _ h2
              (mem_setStrOpt_of_ne _ _ _ _ _ h1 h))))))

/-- C5, amended: every unrecognized frontmatter key other than `tags` is
preserved by an upsert — the rewritten sidecar's frontmatter block
contains the line `key: String(value)`, which for a plain string value is
the trimmed original text; the `tags` key alone is deliberately deleted
(migrated into the managed body hashtag line). -/
theorem c5_amended (c : String) (m : MetaPatch) (k : String) (v : YVal)
    (hk : k ∉ recognizedKeys) (ht : k ≠ "tags")
    (hv : lookupFm (parseSidecar c).1 k = some v) :
    (k ++ ": " ++ renderYVal v) ∈ renderFmLines (upsertFm (some c) m) := by
  have hm : (k, v) ∈ upsertFm (some c) m :=
    mem_delKey_of_ne _ _ _ _ ht
      (mem_applyMeta_of_unrecognized _ m _ _ hk (lookupFm_mem _ _ _ hv))
  simp only [renderFmLines, List.mem_cons, List.mem_append]
  right
  left
  exact List.mem_map.mpr ⟨(k, v), hm, rfl⟩

/-- C5, witness for the amended theorem at a concrete sidecar. -/
theorem c5_amended_witness :
    ("custom: hello" : String) ∈ renderFmLines (upsertFm
      (some "---\ncustom: hello\nstepName: a\n---\nbody")
      { description := some "x" }) :=
  c5_amended "---\ncustom: hello\nstepName: a\n---\nbody"
    { description := some "x" } "custom" (.str "hello")
    (by decide) (by decide) (by decide)

/-- C9: for every scanned item, `playCount` carries the sidecar value
only when that value is numeric, in which case it is floored and clamped
to at least 0; otherwise it is absent and every read defaults it to 0, so
the play count observed for a scanned item is always a non-negative
integer. -/
theorem c9_playCount (st : Vault) (root : Option String) (f : VFile) :
    (scanItem st root f).playCount =
      (match (readSidecarFrontmatter st f).bind (fun fm => lookupFm fm "playCount") with
        | some (.num q) => some (max 0 (floorD q))
        | _ => none) ∧
    (∀ n, (scanItem st root f).playCount = some n → 0 ≤ n) ∧
    0 ≤ displayedPlayCount (scanItem st root f) ∧
    ((scanItem st root f).playCount = none →
      displayedPlayCount (scanItem st root f) = 0) := by
  have hpc : (scanItem st root f).playCount =
      (match (readSidecarFrontmatter st f).bind (fun fm => lookupFm fm "playCount") with
        | some (.num q) => some (max 0 (floorD q))
        | _ => none) := by
    simp only [scanItem]
    cases hfm : readSidecarFrontmatter st f with
    | none => rfl
    | some fm =>
      rw [show (some fm).bind (fun fm => lookupFm fm "playCount") =
        lookupFm fm "playCount" from rfl]
  refine ⟨hpc, ?_, ?_, ?_⟩
  · intro n hn
    rw [hpc] at hn
    rcases hb : (readSidecarFrontmatter st f).bind (fun fm => lookupFm fm "playCount") with
      _ | v
    · rw [hb] at hn
      exact absurd hn (by simp)
    · rw [hb] at hn
      cases v with
      | str s => exact absurd hn (by simp)
      | num q =>
        simp only [Option.some_inj] at hn
        omega
      | nul => exact absurd hn (by simp)
  · unfold displayedPlayCount
    rcases hv : (scanItem st root f).playCount with _ | n
    · simp
    · rw [hpc] at hv
      rcases hb : (readSidecarFrontmatter st f).bind (fun fm => lookupFm fm "playCount") with
        _ | v
      · rw [hb] at hv
        exact absurd hv (by simp)
      · rw [hb] at hv
        cases v with
        | str s => exact absurd hv (by simp)
        | num q =>
          simp only [Option.some_inj] at hv
          simp only [Option.getD_some]
          omega
        | nul => exact absurd hv (by simp)
  · intro hn
    unfold displayedPlayCount
    rw [hn]
    rfl

/-- C9, witness: a sidecar value 2.7 is floored to 2 and observed as 2;
a missing sidecar yields an absent `playCount` displayed as 0. -/
theorem c9_witness :
    (scanItem [⟨"d/a.mp4", "v"⟩, ⟨"d/a.md", "---\nplayCount: 2.7\n---\n"⟩]
      none ⟨"d/a.mp4", "v"⟩).playCount = some 2 ∧
    (0 : ℤ) ≤ 2 ∧
    displayedPlayCount (scanItem [⟨"d/a.mp4", "v"⟩] none ⟨"d/a.mp4", "v"⟩) = 0 := by
  have h1 := c9_playCount [⟨"d/a.mp4", "v"⟩, ⟨"d/a.md", "---\nplayCount: 2.7\n---\n"⟩]
    none ⟨"d/a.mp4", "v"⟩
  have h2 := c9_playCount [⟨"d/a.mp4", "v"⟩] none ⟨"d/a.mp4", "v"⟩
  refine ⟨by decide, h1.2.1 2 (by decide), h2.2.2.2 (by decide)⟩

theorem splitLinesL_ne_nil : ∀ l, splitLinesL l ≠ [] := by
  intro l
  match l with
  | [] => simp [splitLinesL]
  | [c] =>
    simp only [splitLinesL]
    split <;> simp
  | c :: d :: rest =>
    simp only [splitLinesL]
    split
    · simp
    · split
      · simp
      · cases hs : splitLinesL (d :: rest) <;> simp [consHead]

theorem splitLinesL_head_prefixOf : ∀ l m : List Char,
    (splitLinesL l).head? = some m → m.isPrefixOf l = true
  | [], m, h => by
    simp only [splitLinesL, List.head?_cons, Option.some_inj] at h
    subst h
    rfl
  | [c], m, h => by
    simp only [splitLinesL] at h
    by_cases hc : c = '\n'
    · rw [if_pos hc] at h
      simp only [List.head?_cons, Option.some_inj] at h
      subst h
      rfl
    · rw [if_neg hc] at h
      simp only [List.head?_cons, Option.some_inj] at h
      subst h
      simp [List.isPrefixOf]
  | c :: d :: rest, m, h => by
    simp only [splitLinesL] at h
    by_cases hc : c = '\n'
    · rw [if_pos hc] at h
      simp only [List.head?_cons, Option.some_inj] at h
      subst h
      rfl
    · rw [if_neg hc] at h
      by_cases hcd : (c = '\r' && d = '\n') = true
      · rw [if_pos hcd] at h
        simp only [List.head?_cons, Option.some_inj] at h
        subst h
        rfl
      · rw [if_neg hcd] at h
        rcases hs : splitLinesL (d :: rest) with _ | ⟨x, xs⟩
        · exact absurd hs (splitLinesL_ne_nil (d :: rest))
        · rw [hs] at h
          simp only [consHead, List.head?_cons, Option.some_inj] at h
          subst h
          have hx := splitLinesL_head_prefixOf (d :: rest) x (by rw [hs]; rfl)
          simp [List.isPrefixOf, hx]

/-- C10: when a media file's sidecar exists, begins with a frontmatter
delimiter line, and its frontmatter has no non-empty string
`description`, the scanner sets the item's description to the trimmed
first non-empty line of the whole sidecar text — which is the `---`
delimiter line itself — instead of leaving it unset. -/
theorem c10_description_fallback (st : Vault) (root : Option String) (f md : VFile)
    (h1 : findMdSibling st f = some md)
    (h2 : (jsLines md.content).head? = some "---")
    (h3 : (parseFmOfContent md.content).bind
      (fun fm => strFieldTrim fm "description") = none) :
    (scanItem st root f).description = some "---" := by
  obtain ⟨t, ht⟩ : ∃ t, jsLines md.content = "---" :: t := by
    cases hj : jsLines md.content with
    | nil => rw [hj] at h2; exact absurd h2 (by simp)
    | cons a t =>
      rw [hj] at h2
      simp only [List.head?_cons, Option.some_inj] at h2
      exact ⟨t, by rw [h2]⟩
  have hfnel : firstNonEmptyLine md.content = some "---" := by
    unfold firstNonEmptyLine
    rw [ht, List.find?_cons_of_pos _ (by decide)]
    rfl
  have hdesc0 : readSidecarDescription st f = some "---" := by
    simp only [readSidecarDescription, h1, h3]
    exact hfnel
  have hfm : readSidecarFrontmatter st f = parseFmOfContent md.content := by
    unfold readSidecarFrontmatter
    rw [h1]
    rfl
  simp only [scanItem]
  rw [hfm]
  cases hpf : parseFmOfContent md.content with
  | none => exact hdesc0
  | some fm =>
    rw [hpf] at h3
    rw [show (some fm).bind (fun fm => strFieldTrim fm "description") =
      strFieldTrim fm "description" from rfl] at h3
    show (match strFieldTrim fm "description" with
      | some v => some v
      | none => readSidecarDescription st f) = some "---"
    rw [h3]
    exact hdesc0

/-- C10, witness at a concrete vault. -/
theorem c10_witness :
    (scanItem [⟨"d/a.mp4", "v"⟩, ⟨"d/a.md", "---\nstepName: x\n---\nbody"⟩] none
      ⟨"d/a.mp4", "v"⟩).description = some "---" :=
  c10_description_fallback
    [⟨"d/a.mp4", "v"⟩, ⟨"d/a.md", "---\nstepName: x\n---\nbody"⟩] none
    ⟨"d/a.mp4", "v"⟩ ⟨"d/a.md", "---\nstepName: x\n---\nbody"⟩
    (by decide) (by decide) (by decide)

theorem splitLinesL_cons_nl (l : List Char) :
    splitLinesL ('\n' :: l) = [] :: splitLinesL l := by
  cases l with
  | nil => rfl
  | cons d rest => simp [splitLinesL]

theorem splitLinesL_cons_other (c : Char) (l : List Char)
    (h1 : c ≠ '\n') (h2 : c ≠ '\r') :
    splitLinesL (c :: l) = consHead c (splitLinesL l) := by
  cases l with
  | nil =>
    simp only [splitLinesL, if_neg h1]
    rfl
  | cons d rest =>
    simp only [splitLinesL, if_neg h1]
    rw [if_neg]
    simp [h2]

theorem splitLinesL_append (t r : List Char)
    (h : ∀ c ∈ t, c ≠ '\n' ∧ c ≠ '\r') :
    splitLinesL (t ++ '\n' :: r) = t :: splitLinesL r := by
  induction t with
  | nil => exact splitLinesL_cons_nl r
  | cons c t ih =>
    have hc := h c (List.mem_cons_self _ _)
    rw [List.cons_append, splitLinesL_cons_other c _ hc.1 hc.2,
      ih (fun d hd => h d (List.mem_cons_of_mem _ hd))]
    rfl

theorem intercalate_nl_single (a : List Char) :
    List.intercalate ['\n'] [a] = a := by
  simp [List.intercalate, List.intersperse]

theorem intercalate_nl_cons (a : List Char) (s : List (List Char)) (hs : s ≠ []) :
    List.intercalate ['\n'] (a :: s) = a ++ '\n' :: List.intercalate ['\n'] s := by
  cases s with
  | nil => exact absurd rfl hs
  | cons b t =>
    simp [List.intercalate, List.intersperse]

theorem joinN_splitLinesL : ∀ l : List Char, (∀ c ∈ l, c ≠ '\r') →
    List.intercalate ['\n'] (splitLinesL l) = l
  | [], _ => by simp [splitLinesL, List.intercalate]
  | [c], h => by
    by_cases hc : c = '\n'
    · subst hc
      simp [splitLinesL, List.intercalate, List.intersperse]
    · simp [splitLinesL, hc, List.intercalate]
  | c :: d :: rest, h => by
    have hcr : c ≠ '\r' := h c (List.mem_cons_self _ _)
    have hrest : ∀ x ∈ d :: rest, x ≠ '\r' :=
      fun x hx => h x (List.mem_cons_of_mem _ hx)
    by_cases hc : c = '\n'
    · subst hc
      rw [splitLinesL_cons_nl,
        intercalate_nl_cons _ _ (splitLinesL_ne_nil _),
        joinN_splitLinesL (d :: rest) hrest]
      rfl
    · rw [splitLinesL_cons_other c _ hc hcr]
      rcases hs : splitLinesL (d :: rest) with _ | ⟨x, xs⟩
      · exact absurd hs (splitLinesL_ne_nil _)
      · have hj : List.intercalate ['\n'] (x :: xs) = d :: rest := by
          rw [← hs, joinN_splitLinesL (d :: rest) hrest]
        cases xs with
        | nil =>
          rw [intercalate_nl_single] at hj
          simp only [consHead]
          rw [intercalate_nl_single, hj]
        | cons y ys =>
          simp only [consHead]
          rw [intercalate_nl_cons _ _ (by simp)] at hj
          rw [intercalate_nl_cons _ _ (by simp), List.cons_append, hj]

theorem collapseTrailingL_cons_other (c : Char) (l : List Char) (h : c ≠ '\n') :
    collapseTrailingL (c :: l) = c :: collapseTrailingL l := by
  simp only [collapseTrailingL, if_neg h]

theorem collapseTrailingL_sep_nil (t : List Char) (h : ∀ c ∈ t, c ≠ '\n') :
    collapseTrailingL (t ++ ['\n', '\n']) = t ++ ['\n'] := by
  induction t with
  | nil => rfl
  | cons c t ih =>
    rw [List.cons_append,
      collapseTrailingL_cons_other c _ (h c (List.mem_cons_self _ _)),
      ih (fun d hd => h d (List.mem_cons_of_mem _ hd)), List.cons_append]

theorem collapseTrailingL_sep_cons (t : List Char) (x : Char) (xs : List Char)
    (ht : ∀ c ∈ t, c ≠ '\n') (hx : x ≠ '\n') :
    collapseTrailingL (t ++ '\n' :: '\n' :: x :: xs) =
      t ++ '\n' :: '\n' :: x :: xs := by
  induction t with
  | nil =>
    simp only [List.nil_append]
    simp [collapseTrailingL, List.dropWhile, List.takeWhile, hx]
  | cons c t ih =>
    rw [List.cons_append,
      collapseTrailingL_cons_other c _ (ht c (List.mem_cons_self _ _)),
      ih (fun d hd => ht d (List.mem_cons_of_mem _ hd))]

theorem collapseTrailingL_append_structure (t r : List Char)
    (h : ∀ c ∈ t, c ≠ '\n') :
    ∃ r2, collapseTrailingL (t ++ '\n' :: r) = t ++ '\n' :: r2 := by
  induction t with
  | nil =>
    simp only [List.nil_append, collapseTrailingL, eq_self_iff_true, if_true]
    split
    · exact ⟨[], rfl⟩
    · split
      · exact ⟨collapseTrailingL r, rfl⟩
      · exact ⟨'\n' :: r.dropWhile (fun d => d = '\n'), rfl⟩
  | cons c t ih =>
    obtain ⟨r2, hr2⟩ := ih (fun d hd => h d (List.mem_cons_of_mem _ hd))
    refine ⟨r2, ?_⟩
    rw [List.cons_append,
      collapseTrailingL_cons_other c _ (h c (List.mem_cons_self _ _)), hr2,
      List.cons_append]

theorem mem_collapse_or_skip : ∀ l : List Char,
    (∀ c ∈ collapseRunsL l, isAlnumAscii c = true ∨ c = '-') ∧
    (∀ c ∈ skipRunL l, isAlnumAscii c = true ∨ c = '-')
  | [] => ⟨by simp [collapseRunsL], by simp [skipRunL]⟩
  | d :: rest => by
    obtain ⟨ihc, ihs⟩ := mem_collapse_or_skip rest
    constructor
    · intro c hc
      by_cases hd : isAlnumAscii d
      · rw [collapseRunsL, if_pos hd] at hc
        rcases List.mem_cons.mp hc with h | h
        · exact Or.inl (h ▸ hd)
        · exact ihc c h
      · rw [collapseRunsL, if_neg hd] at hc
        rcases List.mem_cons.mp hc with h | h
        · exact Or.inr h
        · exact ihs c h
    · intro c hc
      by_cases hd : isAlnumAscii d
      · rw [skipRunL, if_pos hd] at hc
        rcases List.mem_cons.mp hc with h | h
        · exact Or.inl (h ▸ hd)
        · exact ihc c h
      · rw [skipRunL, if_neg hd] at hc
        exact ihs c hc

theorem normalizeTag_chars (s : String) :
    ∀ c ∈ (normalizeTag s).data, isAlnumAscii c = true ∨ c = '-' := by
  intro c hc
  simp only [normalizeTag] at hc
  unfold trimDashesL at hc
  have h1 := (List.dropWhile_sublist _).mem (List.mem_reverse.mp hc)
  have h2 := List.mem_reverse.mp h1
  have h3 := (List.dropWhile_sublist _).mem h2
  exact (mem_collapse_or_skip (jsTrim s).data).1 c h3

theorem danceTagOf_chars (fm : Fm) :
    ∀ c ∈ (danceTagOf fm).data, isAlnumAscii c = true ∨ c = '-' := by
  intro c hc
  unfold danceTagOf at hc
  rcases hl : lookupFm fm "dance" with _ | v
  · rw [hl] at hc
    simp at hc
  · rw [hl] at hc
    cases v with
    | str d =>
      change c ∈ (if d = "" then "" else normalizeTag d).data at hc
      by_cases hd : d = ""
      · rw [if_pos hd] at hc
        simp at hc
      · rw [if_neg hd] at hc
        exact normalizeTag_chars d c hc
    | num q =>
      change c ∈ ("" : String).data at hc
      simp at hc
    | nul =>
      change c ∈ ("" : String).data at hc
      simp at hc

theorem tagsLineOf_chars (fm : Fm) :
    ∀ c ∈ (tagsLineOf fm).data, c ≠ '\n' ∧ c ≠ '\r' := by
  intro c hc
  unfold tagsLineOf at hc
  by_cases hd : danceTagOf fm = ""
  · rw [if_pos hd] at hc
    constructor <;> (intro e; subst e; revert hc; decide)
  · rw [if_neg hd] at hc
    rcases List.mem_append.mp hc with h | h
    · constructor <;> (intro e; subst e; revert h; decide)
    · rcases danceTagOf_chars fm c h with ha | ha
      · constructor <;> (intro e; subst e; exact absurd ha (by decide))
      · constructor <;> (intro e; subst e; exact absurd ha (by decide))

theorem upsertBody_data (stored : Option String) (fm : Fm) :
    (tagsLineOf fm ++ "\n\n" ++
        dropLeadingNl (dropFirstTagLine (stored.getD ""))).data =
      (tagsLineOf fm).data ++ '\n' :: '\n' ::
        (dropLeadingNl (dropFirstTagLine (stored.getD ""))).data := by
  show ((tagsLineOf fm).data ++ ['\n', '\n']) ++
      (dropLeadingNl (dropFirstTagLine (stored.getD ""))).data = _
  rw [List.append_assoc]
  rfl

theorem upsertBody_first_line (stored : Option String) (fm : Fm) :
    (jsLines (upsertBody stored fm)).head? = some (tagsLineOf fm) := by
  have htag := tagsLineOf_chars fm
  have hnl : ∀ c ∈ (tagsLineOf fm).data, c ≠ '\n' := fun c hc => (htag c hc).1
  obtain ⟨r2, hr2⟩ := collapseTrailingL_append_structure (tagsLineOf fm).data
    ('\n' :: (dropLeadingNl (dropFirstTagLine (stored.getD ""))).data) hnl
  show (List.map (fun l => (⟨l⟩ : String))
      (splitLinesL (collapseTrailing (tagsLineOf fm ++ "\n\n" ++
        dropLeadingNl (dropFirstTagLine (stored.getD "")))).data)).head? =
      some (tagsLineOf fm)
  rw [show (collapseTrailing (tagsLineOf fm ++ "\n\n" ++
      dropLeadingNl (dropFirstTagLine (stored.getD "")))).data =
    collapseTrailingL (tagsLineOf fm ++ "\n\n" ++
      dropLeadingNl (dropFirstTagLine (stored.getD ""))).data from rfl]
  rw [upsertBody_data, hr2, splitLinesL_append _ _ htag]
  rfl

theorem joinN_jsLines (b : String) (hcr : ∀ c ∈ b.data, c ≠ '\r') :
    joinN (jsLines b) = b := by
  unfold joinN jsLines
  rw [List.map_map]
  rw [show ((fun s : String => s.data) ∘ fun l => (⟨l⟩ : String)) = id from rfl,
    List.map_id, joinN_splitLinesL b.data hcr]

theorem dropFirstTagLine_eq_self (b : String) (hcr : ∀ c ∈ b.data, c ≠ '\r')
    (h : strStartsWith (jsTrim ((jsLines b).headD "")) "#DanceLibrary" = false) :
    dropFirstTagLine b = b := by
  have hall : ∀ p ∈ (jsLines b).enum,
      (decide ¬(p.1 = 0 ∧ strStartsWith (jsTrim p.2) "#DanceLibrary" = true)) = true := by
    intro p hp
    rw [decide_eq_true_eq]
    rintro ⟨h0, hS⟩
    have hg := List.mem_enum_iff_get?.mp hp
    rw [h0] at hg
    rcases hl : jsLines b with _ | ⟨l0, ls⟩
    · rw [hl] at hg
      simp at hg
    · rw [hl] at hg
      simp only [List.get?] at hg
      rw [hl] at h
      simp only [List.headD_cons] at h
      rw [show p.2 = l0 from (Option.some_inj.mp hg).symm] at hS
      rw [h] at hS
      exact Bool.false_ne_true hS
  unfold dropFirstTagLine
  rw [List.filter_eq_self.mpr hall,
    show (fun p : Nat × String => p.2) = Prod.snd from rfl,
    List.enum_map_snd]
  exact joinN_jsLines b hcr

theorem dropLeadingNlL_head : ∀ (l : List Char) (x : Char) (xs : List Char),
    dropLeadingNlL l = x :: xs → x ≠ '\n'
  | [], x, xs, h => by simp [dropLeadingNlL] at h
  | c :: rest, x, xs, h => by
    unfold dropLeadingNlL at h
    rw [List.dropWhile_cons] at h
    by_cases hc : c = '\n'
    · rw [if_pos (by simp [hc])] at h
      exact dropLeadingNlL_head rest x xs h
    · rw [if_neg (by simp [hc])] at h
      cases h
      exact hc

/-- C6, amended: after every upsert the first line of the written body is
the managed tag line (`#DanceLibrary`, extended with the `normalizeTag`
of the dance value — dashes for non-alphanumeric runs, case preserved,
not lowercased slugification); a prior managed line is removed only when
it stands at line index 0 of the stored body, so when the stored body's
first line is not a managed line the whole body is kept below the new
tag line (after leading-newline stripping and the trailing-newline
normalization), and in particular prior managed lines behind a
frontmatter block are retained, not replaced. -/
theorem c6_amended (stored : Option String) (fm : Fm) :
    (jsLines (upsertBody stored fm)).head? = some (tagsLineOf fm) ∧
    (∀ b : String, stored = some b → (∀ c ∈ b.data, c ≠ '\r') →
      strStartsWith (jsTrim ((jsLines b).headD "")) "#DanceLibrary" = false →
      upsertBody stored fm =
        (if dropLeadingNl b = "" then tagsLineOf fm ++ "\n"
          else tagsLineOf fm ++ "\n\n" ++ dropLeadingNl b)) := by
  refine ⟨upsertBody_first_line stored fm, ?_⟩
  rintro b rfl hcr hns
  have hkeep : dropFirstTagLine b = b := dropFirstTagLine_eq_self b hcr hns
  show collapseTrailing (tagsLineOf fm ++ "\n\n" ++
    dropLeadingNl (dropFirstTagLine ((some b).getD ""))) = _
  rw [show ((some b).getD "") = b from rfl, hkeep]
  have htag := tagsLineOf_chars fm
  have hnl : ∀ c ∈ (tagsLineOf fm).data, c ≠ '\n' := fun c hc => (htag c hc).1
  by_cases hb : dropLeadingNl b = ""
  · rw [if_pos hb, hb]
    show (⟨collapseTrailingL (tagsLineOf fm ++ "\n\n" ++ ("" : String)).data⟩ : String) =
      tagsLineOf fm ++ "\n"
    have hd : (tagsLineOf fm ++ "\n\n" ++ ("" : String)).data =
        (tagsLineOf fm).data ++ ['\n', '\n'] := by
      show ((tagsLineOf fm).data ++ ['\n', '\n']) ++ [] = _
      rw [List.append_nil]
    rw [hd, collapseTrailingL_sep_nil _ hnl]
    rfl
  · rw [if_neg hb]
    rcases hx : (dropLeadingNl b).data with _ | ⟨x, xs⟩
    · exact absurd (String.ext hx) hb
    · have hxne : x ≠ '\n' := dropLeadingNlL_head b.data x xs hx
      show (⟨collapseTrailingL (tagsLineOf fm ++ "\n\n" ++ dropLeadingNl b).data⟩ : String) =
        tagsLineOf fm ++ "\n\n" ++ dropLeadingNl b
      have hd : (tagsLineOf fm ++ "\n\n" ++ dropLeadingNl b).data =
          (tagsLineOf fm).data ++ '\n' :: '\n' :: (x :: xs) := by
        rw [show (tagsLineOf fm ++ "\n\n" ++ dropLeadingNl b).data =
          ((tagsLineOf fm).data ++ ['\n', '\n']) ++ (dropLeadingNl b).data from rfl,
          hx, List.append_assoc]
        rfl
      rw [hd, collapseTrailingL_sep_cons _ _ _ hnl hxne]
      exact congrArg (fun l => (⟨l⟩ : String)) hd.symm

/-- C6, witness for the amended theorem at a concrete sidecar body. -/
theorem c6_amended_witness :
    (jsLines (upsertBody (some "Intro\nMore") [("dance", .str "Salsa")])).head? =
      some (tagsLineOf [("dance", .str "Salsa")]) ∧
    upsertBody (some "Intro\nMore") [("dance", .str "Salsa")] =
      "#DanceLibrary #Salsa\n\nIntro\nMore" := by
  have h := c6_amended (some "Intro\nMore") [("dance", .str "Salsa")]
  refine ⟨h.1, ?_⟩
  have h2 := h.2 "Intro\nMore" rfl (by decide) (by decide)
  rw [h2]
  decide
theorem digitChar_mem (n : Nat) :
    digitChar n ∈ ['0', '1', '2', '3', '4', '5', '6', '7', '8', '9'] := by
  unfold digitChar
  split <;> decide

theorem natDigitsAux_chars : ∀ (fuel n : Nat) (c : Char),
    c ∈ natDigitsAux fuel n → c ∈ ['0', '1', '2', '3', '4', '5', '6', '7', '8', '9']
  | 0, n, c, h => by simp [natDigitsAux] at h
  | fuel + 1, n, c, h => by
    unfold natDigitsAux at h
    by_cases hn : n < 10
    · rw [if_pos hn] at h
      simp only [List.mem_singleton] at h
      exact h ▸ digitChar_mem n
    · rw [if_neg hn] at h
      rcases List.mem_append.mp h with h | h
      · exact natDigitsAux_chars fuel _ c h
      · simp only [List.mem_singleton] at h
        exact h ▸ digitChar_mem _

theorem lowerChar_good (c : Char) (h : isAlnumAscii c = true ∨ c = '-') :
    isAlnumAscii (lowerChar c) = true ∨ lowerChar c = '-' := by
  unfold lowerChar
  by_cases h1 : c = 'A'
  · rw [if_pos h1]; left; decide
  rw [if_neg h1]
  by_cases h2 : c = 'B'
  · rw [if_pos h2]; left; decide
  rw [if_neg h2]
  by_cases h3 : c = 'C'
  · rw [if_pos h3]; left; decide
  rw [if_neg h3]
  by_cases h4 : c = 'D'
  · rw [if_pos h4]; left; decide
  rw [if_neg h4]
  by_cases h5 : c = 'E'
  · rw [if_pos h5]; left; decide
  rw [if_neg h5]
  by_cases h6 : c = 'F'
  · rw [if_pos h6]; left; decide
  rw [if_neg h6]
  by_cases h7 : c = 'G'
  · rw [if_pos h7]; left; decide
  rw [if_neg h7]
  by_cases h8 : c = 'H'
  · rw [if_pos h8]; left; decide
  rw [if_neg h8]
  by_cases h9 : c = 'I'
  · rw [if_pos h9]; left; decide
  rw [if_neg h9]
  by_cases h10 : c = 'J'
  · rw [if_pos h10]; left; decide
  rw [if_neg h10]
  by_cases h11 : c = 'K'
  · rw [if_pos h11]; left; decide
  rw [if_neg h11]
  by_cases h12 : c = 'L'
  · rw [if_pos h12]; left; decide
  rw [if_neg h12]
  by_cases h13 : c = 'M'
  · rw [if_pos h13]; left; decide
  rw [if_neg h13]
  by_cases h14 : c = 'N'
  · rw [if_pos h14]; left; decide
  rw [if_neg h14]
  by_cases h15 : c = 'O'
  · rw [if_pos h15]; left; decide
  rw [if_neg h15]
  by_cases h16 : c = 'P'
  · rw [if_pos h16]; left; decide
  rw [if_neg h16]
  by_cases h17 : c = 'Q'
  · rw [if_pos h17]; left; decide
  rw [if_neg h17]
  by_cases h18 : c = 'R'
  · rw [if_pos h18]; left; decide
  rw [if_neg h18]
  by_cases h19 : c = 'S'
  · rw [if_pos h19]; left; decide
  rw [if_neg h19]
  by_cases h20 : c = 'T'
  · rw [if_pos h20]; left; decide
  rw [if_neg h20]
  by_cases h21 : c = 'U'
  · rw [if_pos h21]; left; decide
  rw [if_neg h21]
  by_cases h22 : c = 'V'
  · rw [if_pos h22]; left; decide
  rw [if_neg h22]
  by_cases h23 : c = 'W'
  · rw [if_pos h23]; left; decide
  rw [if_neg h23]
  by_cases h24 : c = 'X'
  · rw [if_pos h24]; left; decide
  rw [if_neg h24]
  by_cases h25 : c = 'Y'
  · rw [if_pos h25]; left; decide
  rw [if_neg h25]
  by_cases h26 : c = 'Z'
  · rw [if_pos h26]; left; decide
  rw [if_neg h26]
  exact h

theorem slug_chars (s : String) :
    ∀ c ∈ (slug s).data, isAlnumAscii c = true ∨ c = '-' := by
  intro c hc
  simp only [slug, jsToLower] at hc
  rcases List.mem_map.mp hc with ⟨c2, hc2, rfl⟩
  exact lowerChar_good c2 (normalizeTag_chars s c2 hc2)

theorem good_ne_slash_dot (c : Char) (h : isAlnumAscii c = true ∨ c = '-') :
    c ≠ '/' ∧ c ≠ '.' := by
  rcases h with h | h
  · constructor <;> (intro e; subst e; exact absurd h (by decide))
  · constructor <;> (intro e; rw [e] at h; exact absurd h (by decide))

theorem slashFree_of_chars (s : String) (h : ∀ c ∈ s.data, c ≠ '/') :
    slashFree s = true := by
  unfold slashFree
  rw [Bool.not_eq_true']
  by_contra hcon
  rw [Bool.not_eq_false] at hcon
  have hm : ('/' : Char) ∈ s.data := List.elem_iff.mp hcon
  exact h '/' hm rfl

theorem dotFree_of_chars (s : String) (h : ∀ c ∈ s.data, c ≠ '.') :
    dotFree s = true := by
  unfold dotFree
  rw [Bool.not_eq_true']
  by_contra hcon
  rw [Bool.not_eq_false] at hcon
  have hm : ('.' : Char) ∈ s.data := List.elem_iff.mp hcon
  exact h '.' hm rfl

theorem mem_of_slashFree (s : String) (h : slashFree s = true) :
    ∀ c ∈ s.data, c ≠ '/' := by
  intro c hc e
  subst e
  unfold slashFree at h
  rw [Bool.not_eq_true'] at h
  have hm : s.data.contains '/' = true := List.elem_iff.mpr hc
  rw [h] at hm
  exact Bool.false_ne_true hm

theorem mem_of_dotFree (s : String) (h : dotFree s = true) :
    ∀ c ∈ s.data, c ≠ '.' := by
  intro c hc e
  subst e
  unfold dotFree at h
  rw [Bool.not_eq_true'] at h
  have hm : s.data.contains '.' = true := List.elem_iff.mpr hc
  rw [h] at hm
  exact Bool.false_ne_true hm

theorem jsLastIndexOf_append (x y : List Char) (ch : Char) (hy : ch ∉ y) :
    jsLastIndexOf ⟨x ++ ch :: y⟩ ch = (x.length : Int) := by
  unfold jsLastIndexOf
  rw [show (⟨x ++ ch :: y⟩ : String).data = x ++ ch :: y from rfl]
  rw [List.reverse_append, List.reverse_cons, List.findIdx?_append,
    List.findIdx?_append]
  have hnone : List.findIdx? (fun c => decide (c = ch)) y.reverse = none :=
    List.findIdx?_eq_none_iff.mpr (fun c hc => by
      simp only [decide_eq_false_iff_not]
      intro e
      subst e
      exact hy (List.mem_reverse.mp hc))
  rw [hnone]
  rw [show List.findIdx? (fun x => decide (x = ch)) [ch] = some 0 from by simp]
  show ((x ++ ch :: y).length : Int) - 1 - ((0 + y.reverse.length : Nat) : Int) = (x.length : Int)
  push_cast
  simp only [List.length_append, List.length_cons, List.length_reverse]
  push_cast
  omega
theorem shaped_data (d f e : String) :
    (d ++ "/" ++ f ++ "." ++ e).data = d.data ++ '/' :: (f.data ++ '.' :: e.data) := by
  show (((d.data ++ ['/']) ++ f.data) ++ ['.']) ++ e.data = _
  simp

theorem shaped_data2 (d f e : String) :
    (d ++ "/" ++ f ++ "." ++ e).data = (d.data ++ '/' :: f.data) ++ '.' :: e.data := by
  show (((d.data ++ ['/']) ++ f.data) ++ ['.']) ++ e.data = _
  simp

theorem name_data (f e : String) :
    (f ++ "." ++ e).data = f.data ++ '.' :: e.data := by
  show (f.data ++ ['.']) ++ e.data = _
  simp

theorem jsSubstring_nat (s : String) (a b : Nat) (hab : a ≤ b) (hb : b ≤ s.data.length) :
    jsSubstring s (a : Int) (b : Int) = ⟨(s.data.drop a).take (b - a)⟩ := by
  simp only [jsSubstring]
  have h1 : min (max (a : Int) 0) (s.data.length : Int) = (a : Int) := by omega
  have h2 : min (max (b : Int) 0) (s.data.length : Int) = (b : Int) := by omega
  rw [h1, h2]
  have h3 : min (a : Int) (b : Int) = (a : Int) := by omega
  have h4 : max (a : Int) (b : Int) = (b : Int) := by omega
  rw [h3, h4]
  have h5 : ((a : Int)).toNat = a := rfl
  have h6 : ((b : Int) - (a : Int)).toNat = b - a := by omega
  rw [h5, h6]

theorem lastSlash_shaped (d f e : String)
    (hf : ∀ c ∈ f.data, c ≠ '/') (he : ∀ c ∈ e.data, c ≠ '/') :
    jsLastIndexOf (d ++ "/" ++ f ++ "." ++ e) '/' = (d.data.length : Int) := by
  rw [String.ext (shaped_data d f e)]
  exact jsLastIndexOf_append d.data (f.data ++ '.' :: e.data) '/' (by
    intro hmem
    rcases List.mem_append.mp hmem with h | h
    · exact hf '/' h rfl
    · rcases List.mem_cons.mp h with h | h
      · exact absurd h (by decide)
      · exact he '/' h rfl)

theorem lastDot_shaped (d f e : String) (he : ∀ c ∈ e.data, c ≠ '.') :
    jsLastIndexOf (d ++ "/" ++ f ++ "." ++ e) '.' =
      ((d.data.length + 1 + f.data.length : Nat) : Int) := by
  rw [String.ext (shaped_data2 d f e)]
  have := jsLastIndexOf_append (d.data ++ '/' :: f.data) e.data '.' (by
    intro hmem
    exact he '.' hmem rfl)
  rw [this]
  simp
  omega

theorem lastDot_name (f e : String) (he : ∀ c ∈ e.data, c ≠ '.') :
    jsLastIndexOf (f ++ "." ++ e) '.' = (f.data.length : Int) := by
  rw [String.ext (name_data f e)]
  exact jsLastIndexOf_append f.data e.data '.' (fun hmem => he '.' hmem rfl)

theorem shaped_len (d f e : String) :
    (d ++ "/" ++ f ++ "." ++ e).data.length =
      d.data.length + 1 + f.data.length + 1 + e.data.length := by
  rw [shaped_data]
  simp
  omega

theorem sub_d_shaped (d f e : String) :
    jsSubstring (d ++ "/" ++ f ++ "." ++ e) 0 (d.data.length : Int) = d := by
  rw [show (0 : Int) = ((0 : Nat) : Int) from rfl,
    jsSubstring_nat _ 0 d.data.length (Nat.zero_le _)
      (by rw [shaped_len]; omega)]
  rw [show (d ++ "/" ++ f ++ "." ++ e).data = d.data ++ ('/' :: (f.data ++ '.' :: e.data)) from
    shaped_data d f e]
  rw [List.drop_zero, Nat.sub_zero]
  rw [List.take_left]

theorem sub_f_shaped (d f e : String) :
    jsSubstring (d ++ "/" ++ f ++ "." ++ e)
      ((d.data.length + 1 : Nat) : Int) ((d.data.length + 1 + f.data.length : Nat) : Int) = f := by
  rw [jsSubstring_nat _ (d.data.length + 1) (d.data.length + 1 + f.data.length)
    (by omega) (by rw [shaped_len]; omega)]
  rw [show (d ++ "/" ++ f ++ "." ++ e).data =
    (d.data ++ ['/']) ++ (f.data ++ '.' :: e.data) from by
      rw [shaped_data]; simp]
  rw [show d.data.length + 1 = (d.data ++ ['/']).length from by simp,
    List.drop_left]
  rw [show (d.data ++ ['/']).length + f.data.length - (d.data ++ ['/']).length
      = f.data.length from by omega]
  rw [List.take_left]

theorem sub_name_shaped (d f e : String) :
    jsSubstring (d ++ "/" ++ f ++ "." ++ e)
      ((d.data.length + 1 : Nat) : Int) ((d ++ "/" ++ f ++ "." ++ e).data.length : Int) =
      f ++ "." ++ e := by
  rw [jsSubstring_nat _ (d.data.length + 1) (d ++ "/" ++ f ++ "." ++ e).data.length
    (by rw [shaped_len]; omega) (le_refl _)]
  apply String.ext
  show ((((d ++ "/" ++ f ++ "." ++ e).data.drop (d.data.length + 1)).take _)) = _
  rw [show (d ++ "/" ++ f ++ "." ++ e).data =
    (d.data ++ ['/']) ++ (f.data ++ '.' :: e.data) from by
      rw [shaped_data]; simp]
  rw [show d.data.length + 1 = (d.data ++ ['/']).length from by simp,
    List.drop_left]
  rw [List.take_all_of_le (by simp; omega)]
  rw [name_data]

theorem pathFileName_shaped (d f e : String)
    (hf : ∀ c ∈ f.data, c ≠ '/') (he : ∀ c ∈ e.data, c ≠ '/') :
    pathFileName (d ++ "/" ++ f ++ "." ++ e) = f ++ "." ++ e := by
  unfold pathFileName
  rw [lastSlash_shaped d f e hf he]
  rw [show (d.data.length : Int) + 1 = ((d.data.length + 1 : Nat) : Int) from by push_cast; ring]
  exact sub_name_shaped d f e

theorem fileExt_shaped (d f e : String)
    (hf : ∀ c ∈ f.data, c ≠ '/') (he : ∀ c ∈ e.data, c ≠ '/')
    (hed : ∀ c ∈ e.data, c ≠ '.') :
    fileExt (d ++ "/" ++ f ++ "." ++ e) = e := by
  simp only [fileExt]
  rw [pathFileName_shaped d f e hf he, lastDot_name f e hed]
  rw [if_neg (by omega)]
  rw [show (f.data.length : Int) + 1 = ((f.data.length + 1 : Nat) : Int) from by push_cast; ring]
  rw [show ((f ++ "." ++ e).data.length : Int) = (((f ++ "." ++ e).data.length : Nat) : Int) from rfl]
  rw [jsSubstring_nat _ (f.data.length + 1) (f ++ "." ++ e).data.length
    (by rw [name_data]; simp) (le_refl _)]
  apply String.ext
  show ((f ++ "." ++ e).data.drop (f.data.length + 1)).take _ = _
  rw [name_data]
  rw [show f.data.length + 1 = (f.data ++ ['.']).length from by simp,
    show f.data ++ '.' :: e.data = (f.data ++ ['.']) ++ e.data from by simp,
    List.drop_left]
  rw [List.take_all_of_le (by simp; omega)]

theorem fileBase_shaped (d f e : String)
    (hf : ∀ c ∈ f.data, c ≠ '/') (he : ∀ c ∈ e.data, c ≠ '/')
    (hed : ∀ c ∈ e.data, c ≠ '.') :
    fileBase (d ++ "/" ++ f ++ "." ++ e) = f := by
  simp only [fileBase]
  rw [pathFileName_shaped d f e hf he, lastDot_name f e hed]
  rw [if_neg (by omega)]
  rw [show (0 : Int) = ((0 : Nat) : Int) from rfl,
    show (f.data.length : Int) = ((f.data.length : Nat) : Int) from rfl]
  rw [jsSubstring_nat _ 0 f.data.length (Nat.zero_le _) (by rw [name_data]; simp)]
  apply String.ext
  show ((f ++ "." ++ e).data.drop 0).take _ = _
  rw [name_data, List.drop_zero, Nat.sub_zero]
  rw [List.take_left]

theorem parentPathOf_shaped (d f e : String)
    (hf : ∀ c ∈ f.data, c ≠ '/') (he : ∀ c ∈ e.data, c ≠ '/') :
    parentPathOf (d ++ "/" ++ f ++ "." ++ e) = d := by
  unfold parentPathOf
  rw [lastSlash_shaped d f e hf he]
  exact sub_d_shaped d f e

theorem sidecarPathOf_shaped (d f e : String)
    (hf : ∀ c ∈ f.data, c ≠ '/') (he : ∀ c ∈ e.data, c ≠ '/')
    (hed : ∀ c ∈ e.data, c ≠ '.') :
    sidecarPathOf (d ++ "/" ++ f ++ "." ++ e) = d ++ "/" ++ f ++ ".md" := by
  unfold sidecarPathOf
  rw [parentPathOf_shaped d f e hf he, fileBase_shaped d f e hf he hed]

theorem mdSub_shaped (d f e : String)
    (hf : ∀ c ∈ f.data, c ≠ '/') (he : ∀ c ∈ e.data, c ≠ '/')
    (hed : ∀ c ∈ e.data, c ≠ '.') :
    jsSubstring (d ++ "/" ++ f ++ "." ++ e) 0 (jsLastIndexOf (d ++ "/" ++ f ++ "." ++ e) '/') ++
      "/" ++
      jsSubstring (d ++ "/" ++ f ++ "." ++ e) (jsLastIndexOf (d ++ "/" ++ f ++ "." ++ e) '/' + 1)
        (jsLastIndexOf (d ++ "/" ++ f ++ "." ++ e) '.') ++ ".md" =
      d ++ "/" ++ f ++ ".md" := by
  rw [lastSlash_shaped d f e hf he, lastDot_shaped d f e hed]
  rw [sub_d_shaped d f e]
  rw [show (d.data.length : Int) + 1 = ((d.data.length + 1 : Nat) : Int) from by push_cast; ring]
  rw [sub_f_shaped d f e]
theorem getByPath_path (st : Vault) (p : String) (f : VFile)
    (h : getByPath st p = some f) : f.path = p := by
  have := List.find?_some h
  exact of_decide_eq_true this

theorem getByPath_isSome_iff (st : Vault) (q : String) :
    (getByPath st q).isSome = true ↔ ∃ f ∈ st, f.path = q := by
  unfold getByPath
  rw [List.find?_isSome]
  constructor
  · rintro ⟨f, hf, hp⟩
    exact ⟨f, hf, of_decide_eq_true hp⟩
  · rintro ⟨f, hf, hp⟩
    exact ⟨f, hf, decide_eq_true hp⟩

theorem rename_isSome_new (st : Vault) (pOld pNew : String)
    (h : (getByPath st pOld).isSome = true) :
    (getByPath (vaultRename st pOld pNew) pNew).isSome = true := by
  rcases (getByPath_isSome_iff st pOld).mp h with ⟨f, hf, hp⟩
  apply (getByPath_isSome_iff _ _).mpr
  refine ⟨{ f with path := pNew }, ?_, rfl⟩
  unfold vaultRename
  exact List.mem_map.mpr ⟨f, hf, by rw [if_pos hp]⟩

theorem rename_isSome_other (st : Vault) (pOld pNew q : String)
    (h : (getByPath st q).isSome = true) (hq : q ≠ pOld) :
    (getByPath (vaultRename st pOld pNew) q).isSome = true := by
  rcases (getByPath_isSome_iff st q).mp h with ⟨f, hf, hp⟩
  apply (getByPath_isSome_iff _ _).mpr
  refine ⟨f, ?_, hp⟩
  unfold vaultRename
  exact List.mem_map.mpr ⟨f, hf, by rw [if_neg (by rw [hp]; exact hq)]⟩

theorem modify_isSome (st : Vault) (p c q : String) :
    (getByPath (vaultModify st p c) q).isSome = (getByPath st q).isSome := by
  rcases h1 : (getByPath st q).isSome with _ | _
  · by_contra hcon
    rw [Bool.not_eq_false] at hcon
    rcases (getByPath_isSome_iff _ _).mp hcon with ⟨f, hf, hp⟩
    unfold vaultModify at hf
    rcases List.mem_map.mp hf with ⟨g, hg, he⟩
    have hgq : g.path = q := by
      by_cases hgp : g.path = p
      · rw [if_pos hgp] at he
        have h2 := congrArg VFile.path he
        exact h2.trans hp
      · rw [if_neg hgp] at he
        rw [he]
        exact hp
    rw [(getByPath_isSome_iff st q).mpr ⟨g, hg, hgq⟩] at h1
    exact Bool.noConfusion h1
  · rcases (getByPath_isSome_iff _ _).mp h1 with ⟨f, hf, hp⟩
    apply (getByPath_isSome_iff _ _).mpr
    unfold vaultModify
    by_cases hfp : f.path = p
    · exact ⟨{ f with content := c }, List.mem_map.mpr ⟨f, hf, by rw [if_pos hfp]⟩, hp⟩
    · exact ⟨f, List.mem_map.mpr ⟨f, hf, by rw [if_neg hfp]⟩, hp⟩

theorem create_isSome_self (st : Vault) (p c : String) :
    (getByPath (vaultCreate st p c) p).isSome = true := by
  apply (getByPath_isSome_iff _ _).mpr
  exact ⟨⟨p, c⟩, by unfold vaultCreate; simp, rfl⟩

theorem trash_isSome_ne (st : Vault) (tr q : String)
    (h : (getByPath st q).isSome = true) (hq : q ≠ tr) :
    (getByPath (vaultTrash st tr) q).isSome = true := by
  rcases (getByPath_isSome_iff st q).mp h with ⟨f, hf, hp⟩
  apply (getByPath_isSome_iff _ _).mpr
  refine ⟨f, ?_, hp⟩
  unfold vaultTrash
  rw [List.mem_filter]
  exact ⟨hf, by rw [hp]; exact decide_eq_true hq⟩

theorem upsert_sidecar_exists (st : Vault) (v : String) (af : VFile)
    (mm : MetaPatch) (h : getByPath st v = some af) :
    (getByPath (upsertSidecarMetadata st v mm) (sidecarPathOf v)).isSome = true := by
  have haf : af.path = v := getByPath_path st v af h
  unfold upsertSidecarMetadata
  rw [h]
  show (getByPath
      (match getByPath st (parentPathOf af.path ++ "/" ++ fileBase af.path ++ ".md") with
        | some ex => vaultModify st (parentPathOf af.path ++ "/" ++ fileBase af.path ++ ".md")
            (upsertText (some ex.content) mm)
        | none => vaultCreate st (parentPathOf af.path ++ "/" ++ fileBase af.path ++ ".md")
            (upsertText none mm))
      (sidecarPathOf v)).isSome = true
  rw [haf]
  split
  · rw [show sidecarPathOf v = parentPathOf v ++ "/" ++ fileBase v ++ ".md" from rfl]
    rw [modify_isSome]
    rename_i ex heq
    rw [heq]
    rfl
  · exact create_isSome_self st (parentPathOf v ++ "/" ++ fileBase v ++ ".md") _

theorem fullExtOf_shaped (x e : String) (hed : ∀ c ∈ e.data, c ≠ '.') :
    fullExtOf (x ++ "." ++ e) = e := by
  simp only [fullExtOf]
  rw [lastDot_name x e hed]
  rw [if_neg (by omega)]
  rw [show (x.data.length : Int) + 1 = ((x.data.length + 1 : Nat) : Int) from by push_cast; ring]
  rw [show ((x ++ "." ++ e).data.length : Int) = (((x ++ "." ++ e).data.length : Nat) : Int) from rfl]
  rw [jsSubstring_nat _ (x.data.length + 1) (x ++ "." ++ e).data.length
    (by rw [name_data]; simp) (le_refl _)]
  apply String.ext
  show ((x ++ "." ++ e).data.drop (x.data.length + 1)).take _ = _
  rw [name_data]
  rw [show x.data.length + 1 = (x.data ++ ['.']).length from by simp,
    show x.data ++ '.' :: e.data = (x.data ++ ['.']) ++ e.data from by simp,
    List.drop_left]
  rw [List.take_all_of_le (by simp; omega)]

theorem fullBaseOf_shaped (x e : String) (hed : ∀ c ∈ e.data, c ≠ '.') :
    fullBaseOf (x ++ "." ++ e) = x := by
  simp only [fullBaseOf]
  rw [fullExtOf_shaped x e hed]
  apply String.ext
  show ((x ++ "." ++ e).data.take _) = _
  rw [name_data]
  have hlen : (x.data ++ '.' :: e.data).length - (e.data.length + 1) = x.data.length := by
    simp
  rw [hlen, List.take_left]

theorem uniquePathAux_shape (st : Vault) (base ext : String) :
    ∀ (fuel i : Nat), ∃ k, uniquePathAux st base ext fuel i =
      base ++ " " ++ natDigits k ++ "." ++ ext
  | 0, i => ⟨i, rfl⟩
  | fuel + 1, i => by
    unfold uniquePathAux
    by_cases h : (getByPath st (base ++ " " ++ natDigits i ++ "." ++ ext)).isSome = true
    · rw [if_pos h]
      exact uniquePathAux_shape st base ext fuel (i + 1)
    · rw [if_neg h]
      exact ⟨i, rfl⟩

theorem natDigits_ne_slash_dot (n : Nat) :
    ∀ c ∈ (natDigits n).data, c ≠ '/' ∧ c ≠ '.' := by
  intro c hc
  have := natDigitsAux_chars (n + 1) n c hc
  fin_cases this <;> exact ⟨by decide, by decide⟩

theorem uniquePath_shaped (st : Vault) (d ts e : String)
    (hts : ∀ c ∈ ts.data, c ≠ '/')
    (hed : ∀ c ∈ e.data, c ≠ '.') :
    ∃ f2 : String, uniquePath st (d ++ "/" ++ ts ++ "." ++ e) = d ++ "/" ++ f2 ++ "." ++ e ∧
      (∀ c ∈ f2.data, c ≠ '/') := by
  unfold uniquePath
  by_cases h : (getByPath st (d ++ "/" ++ ts ++ "." ++ e)).isSome = true
  · rw [if_pos h]
    rw [show d ++ "/" ++ ts ++ "." ++ e = (d ++ "/" ++ ts) ++ "." ++ e from by
      apply String.ext; simp]
    rw [fullBaseOf_shaped (d ++ "/" ++ ts) e hed, fullExtOf_shaped (d ++ "/" ++ ts) e hed]
    rcases uniquePathAux_shape st (d ++ "/" ++ ts) e (st.length + 1) 2 with ⟨k, hk⟩
    refine ⟨ts ++ " " ++ natDigits k, ?_, ?_⟩
    · rw [hk]
      apply String.ext
      simp
    · intro c hc
      rw [show (ts ++ " " ++ natDigits k).data =
        ts.data ++ ' ' :: (natDigits k).data from by
          show (ts.data ++ [' ']) ++ (natDigits k).data = _
          simp] at hc
      rcases List.mem_append.mp hc with h2 | h2
      · exact hts c h2
      · rcases List.mem_cons.mp h2 with h2 | h2
        · rw [h2]; decide
        · exact (natDigits_ne_slash_dot k c h2).1
  · rw [if_neg h]
    exact ⟨ts, rfl, hts⟩
theorem newBase_shaped (d f e : String)
    (hf : ∀ c ∈ f.data, c ≠ '/') (he : ∀ c ∈ e.data, c ≠ '/')
    (hed : ∀ c ∈ e.data, c ≠ '.') :
    jsSubstring (d ++ "/" ++ f ++ "." ++ e) (jsLastIndexOf (d ++ "/" ++ f ++ "." ++ e) '/' + 1)
      (jsLastIndexOf (d ++ "/" ++ f ++ "." ++ e) '.') = f := by
  rw [lastSlash_shaped d f e hf he, lastDot_shaped d f e hed]
  rw [show (d.data.length : Int) + 1 = ((d.data.length + 1 : Nat) : Int) from by push_cast; ring]
  exact sub_f_shaped d f e

theorem saveMeta_rename_keeps (st : Vault) (d b e : String) (m : SaveMetaPatch) (now : Nat) (af : VFile)
    (p : String) (hpdef : p = d ++ "/" ++ b ++ "." ++ e)
    (hbs : ∀ c ∈ b.data, c ≠ '/')
    (hes : ∀ c ∈ e.data, c ≠ '/') (hed : ∀ c ∈ e.data, c ≠ '.')
    (hemd : e ≠ "md")
    (hvid : getByPath st p = some af)
    (hdes : jsTrim (m.stepName.getD "") ≠ "")
    (hts : (if slug (jsTrim (m.stepName.getD "")) ≠ "" then slug (jsTrim (m.stepName.getD ""))
            else "video-" ++ natDigits now) ≠ b) :
    (getByPath (saveMeta st p m now).1 (sidecarPathOf (saveMeta st p m now).2)).isSome = true := by
  have haf : af.path = p := getByPath_path st p af hvid
  have hparent : parentPathOf p = d := by
    rw [hpdef]; exact parentPathOf_shaped d b e hbs hes
  have hbase : fileBase p = b := by
    rw [hpdef]; exact fileBase_shaped d b e hbs hes hed
  have hext : fileExt p = e := by
    rw [hpdef]; exact fileExt_shaped d b e hbs hes hed
  have htss : ∀ c ∈ (if slug (jsTrim (m.stepName.getD "")) ≠ ""
      then slug (jsTrim (m.stepName.getD "")) else "video-" ++ natDigits now).data, c ≠ '/' := by
    by_cases hsl : slug (jsTrim (m.stepName.getD "")) ≠ ""
    · rw [if_pos hsl]
      intro c hc
      exact (good_ne_slash_dot c (slug_chars _ c hc)).1
    · rw [if_neg hsl]
      intro c hc
      rw [show ("video-" ++ natDigits now).data =
        'v' :: 'i' :: 'd' :: 'e' :: 'o' :: '-' :: (natDigits now).data from rfl] at hc
      simp only [List.mem_cons] at hc
      rcases hc with rfl | rfl | rfl | rfl | rfl | rfl | hc
      · decide
      · decide
      · decide
      · decide
      · decide
      · decide
      · exact (natDigits_ne_slash_dot now c hc).1
  obtain ⟨f2, hfin, hf2s⟩ := uniquePath_shaped st d
    (if slug (jsTrim (m.stepName.getD "")) ≠ "" then slug (jsTrim (m.stepName.getD ""))
      else "video-" ++ natDigits now) e htss hed
  have hvidsome : (getByPath st p).isSome = true := by rw [hvid]; rfl
  have hold_sub : jsSubstring p 0 (jsLastIndexOf p '/') ++ "/" ++
      jsSubstring p (jsLastIndexOf p '/' + 1) (jsLastIndexOf p '.') ++ ".md" =
      d ++ "/" ++ b ++ ".md" := by
    rw [hpdef]; exact mdSub_shaped d b e hbs hes hed
  have holdshape : d ++ "/" ++ b ++ ".md" = d ++ "/" ++ b ++ "." ++ "md" := by
    apply String.ext
    show (((d.data ++ ['/']) ++ b.data) ++ ['.', 'm', 'd']) = _
    simp
  have hfinext : fileExt (d ++ "/" ++ f2 ++ "." ++ e) = e :=
    fileExt_shaped d f2 e hf2s hes hed
  have holdext : fileExt (d ++ "/" ++ b ++ ".md") = "md" := by
    rw [holdshape]
    exact fileExt_shaped d b "md" hbs (by decide) (by decide)
  have hfinne : (d ++ "/" ++ f2 ++ "." ++ e) ≠ d ++ "/" ++ b ++ ".md" := by
    intro hcontra
    have h2 := congrArg fileExt hcontra
    rw [hfinext, holdext] at h2
    exact hemd h2
  have hsidefin : sidecarPathOf (d ++ "/" ++ f2 ++ "." ++ e) = d ++ "/" ++ f2 ++ ".md" :=
    sidecarPathOf_shaped d f2 e hf2s hes hed
  have hrenamed : (getByPath (vaultRename st p (d ++ "/" ++ f2 ++ "." ++ e))
      (d ++ "/" ++ f2 ++ "." ++ e)).isSome = true :=
    rename_isSome_new st p (d ++ "/" ++ f2 ++ "." ++ e) hvidsome
  have hsub0 : jsSubstring (d ++ "/" ++ f2 ++ "." ++ e) 0
      (jsLastIndexOf (d ++ "/" ++ f2 ++ "." ++ e) '/') = d := by
    rw [lastSlash_shaped d f2 e hf2s hes]
    exact sub_d_shaped d f2 e
  have hmain : ∀ stA : Vault, (getByPath stA (d ++ "/" ++ f2 ++ "." ++ e)).isSome = true →
      (getByPath
        (if (d ++ "/" ++ f2 ++ "." ++ e) ≠ p then
          (if ((getByPath (upsertSidecarMetadata stA (d ++ "/" ++ f2 ++ "." ++ e) (saveMetaToUpsert m))
                  (d ++ "/" ++ b ++ ".md")).isSome &&
               (getByPath (upsertSidecarMetadata stA (d ++ "/" ++ f2 ++ "." ++ e) (saveMetaToUpsert m))
                  (jsSubstring (d ++ "/" ++ f2 ++ "." ++ e) 0 (jsLastIndexOf (d ++ "/" ++ f2 ++ "." ++ e) '/') ++ "/" ++
        jsSubstring (d ++ "/" ++ f2 ++ "." ++ e) (jsLastIndexOf (d ++ "/" ++ f2 ++ "." ++ e) '/' + 1)
          (jsLastIndexOf (d ++ "/" ++ f2 ++ "." ++ e) '.') ++ ".md")).isSome &&
               (d ++ "/" ++ b ++ ".md" != jsSubstring (d ++ "/" ++ f2 ++ "." ++ e) 0 (jsLastIndexOf (d ++ "/" ++ f2 ++ "." ++ e) '/') ++ "/" ++
        jsSubstring (d ++ "/" ++ f2 ++ "." ++ e) (jsLastIndexOf (d ++ "/" ++ f2 ++ "." ++ e) '/' + 1)
          (jsLastIndexOf (d ++ "/" ++ f2 ++ "." ++ e) '.') ++ ".md"))
           then (vaultTrash (upsertSidecarMetadata stA (d ++ "/" ++ f2 ++ "." ++ e) (saveMetaToUpsert m))
                  (d ++ "/" ++ b ++ ".md"), (d ++ "/" ++ f2 ++ "." ++ e))
           else (upsertSidecarMetadata stA (d ++ "/" ++ f2 ++ "." ++ e) (saveMetaToUpsert m), (d ++ "/" ++ f2 ++ "." ++ e)))
         else (upsertSidecarMetadata stA (d ++ "/" ++ f2 ++ "." ++ e) (saveMetaToUpsert m), (d ++ "/" ++ f2 ++ "." ++ e))).1
        (sidecarPathOf
          (if (d ++ "/" ++ f2 ++ "." ++ e) ≠ p then
            (if ((getByPath (upsertSidecarMetadata stA (d ++ "/" ++ f2 ++ "." ++ e) (saveMetaToUpsert m))
                    (d ++ "/" ++ b ++ ".md")).isSome &&
                 (getByPath (upsertSidecarMetadata stA (d ++ "/" ++ f2 ++ "." ++ e) (saveMetaToUpsert m))
                    (jsSubstring (d ++ "/" ++ f2 ++ "." ++ e) 0 (jsLastIndexOf (d ++ "/" ++ f2 ++ "." ++ e) '/') ++ "/" ++
        jsSubstring (d ++ "/" ++ f2 ++ "." ++ e) (jsLastIndexOf (d ++ "/" ++ f2 ++ "." ++ e) '/' + 1)
          (jsLastIndexOf (d ++ "/" ++ f2 ++ "." ++ e) '.') ++ ".md")).isSome &&
                 (d ++ "/" ++ b ++ ".md" != jsSubstring (d ++ "/" ++ f2 ++ "." ++ e) 0 (jsLastIndexOf (d ++ "/" ++ f2 ++ "." ++ e) '/') ++ "/" ++
        jsSubstring (d ++ "/" ++ f2 ++ "." ++ e) (jsLastIndexOf (d ++ "/" ++ f2 ++ "." ++ e) '/' + 1)
          (jsLastIndexOf (d ++ "/" ++ f2 ++ "." ++ e) '.') ++ ".md"))
             then (vaultTrash (upsertSidecarMetadata stA (d ++ "/" ++ f2 ++ "." ++ e) (saveMetaToUpsert m))
                    (d ++ "/" ++ b ++ ".md"), (d ++ "/" ++ f2 ++ "." ++ e))
             else (upsertSidecarMetadata stA (d ++ "/" ++ f2 ++ "." ++ e) (saveMetaToUpsert m), (d ++ "/" ++ f2 ++ "." ++ e)))
           else (upsertSidecarMetadata stA (d ++ "/" ++ f2 ++ "." ++ e) (saveMetaToUpsert m), (d ++ "/" ++ f2 ++ "." ++ e))).2)).isSome = true := by
    intro stA hstA
    rcases Option.isSome_iff_exists.mp hstA with ⟨af2, haf2⟩
    have hST2 : (getByPath (upsertSidecarMetadata stA (d ++ "/" ++ f2 ++ "." ++ e) (saveMetaToUpsert m))
        (sidecarPathOf (d ++ "/" ++ f2 ++ "." ++ e))).isSome = true :=
      upsert_sidecar_exists stA (d ++ "/" ++ f2 ++ "." ++ e) af2 (saveMetaToUpsert m) haf2
    by_cases houter : (d ++ "/" ++ f2 ++ "." ++ e) ≠ p
    · rw [if_pos houter]
      by_cases hg : ((getByPath (upsertSidecarMetadata stA (d ++ "/" ++ f2 ++ "." ++ e) (saveMetaToUpsert m))
              (d ++ "/" ++ b ++ ".md")).isSome &&
           (getByPath (upsertSidecarMetadata stA (d ++ "/" ++ f2 ++ "." ++ e) (saveMetaToUpsert m))
              (jsSubstring (d ++ "/" ++ f2 ++ "." ++ e) 0 (jsLastIndexOf (d ++ "/" ++ f2 ++ "." ++ e) '/') ++ "/" ++
        jsSubstring (d ++ "/" ++ f2 ++ "." ++ e) (jsLastIndexOf (d ++ "/" ++ f2 ++ "." ++ e) '/' + 1)
          (jsLastIndexOf (d ++ "/" ++ f2 ++ "." ++ e) '.') ++ ".md")).isSome &&
           (d ++ "/" ++ b ++ ".md" != jsSubstring (d ++ "/" ++ f2 ++ "." ++ e) 0 (jsLastIndexOf (d ++ "/" ++ f2 ++ "." ++ e) '/') ++ "/" ++
        jsSubstring (d ++ "/" ++ f2 ++ "." ++ e) (jsLastIndexOf (d ++ "/" ++ f2 ++ "." ++ e) '/' + 1)
          (jsLastIndexOf (d ++ "/" ++ f2 ++ "." ++ e) '.') ++ ".md")) = true
      · rw [if_pos hg]
        show (getByPath (vaultTrash (upsertSidecarMetadata stA (d ++ "/" ++ f2 ++ "." ++ e) (saveMetaToUpsert m))
            (d ++ "/" ++ b ++ ".md")) (sidecarPathOf (d ++ "/" ++ f2 ++ "." ++ e))).isSome = true
        simp only [Bool.and_eq_true] at hg
        have hne : (d ++ "/" ++ b ++ ".md" != jsSubstring (d ++ "/" ++ f2 ++ "." ++ e) 0 (jsLastIndexOf (d ++ "/" ++ f2 ++ "." ++ e) '/') ++ "/" ++
        jsSubstring (d ++ "/" ++ f2 ++ "." ++ e) (jsLastIndexOf (d ++ "/" ++ f2 ++ "." ++ e) '/' + 1)
          (jsLastIndexOf (d ++ "/" ++ f2 ++ "." ++ e) '.') ++ ".md") = true := hg.2
        rw [mdSub_shaped d f2 e hf2s hes hed] at hne
        apply trash_isSome_ne _ _ _ hST2
        rw [hsidefin]
        exact fun h2 => (bne_iff_ne.mp hne) h2.symm
      · rw [if_neg hg]
        exact hST2
    · rw [if_neg houter]
      exact hST2
  simp only [saveMeta, hvid, haf, hparent, hbase, hext]
  rw [if_pos hdes, if_pos hts, hfin, hold_sub,
    newBase_shaped d f2 e hf2s hes hed]
  rcases hq : getByPath (vaultRename st p (d ++ "/" ++ f2 ++ "." ++ e))
      (d ++ "/" ++ b ++ ".md") with _ | exold
  · simp only [hq]
    exact hmain (vaultRename st p (d ++ "/" ++ f2 ++ "." ++ e)) hrenamed
  · simp only [hq]
    by_cases htm : (getByPath (vaultRename st p (d ++ "/" ++ f2 ++ "." ++ e))
        (d ++ "/" ++ f2 ++ ".md")).isSome = true
    · simp only [if_pos htm]
      exact hmain (vaultRename st p (d ++ "/" ++ f2 ++ "." ++ e)) hrenamed
    · simp only [if_neg htm]
      exact hmain (vaultRename (vaultRename st p (d ++ "/" ++ f2 ++ "." ++ e)) (d ++ "/" ++ b ++ ".md")
          (d ++ "/" ++ f2 ++ ".md"))
        (rename_isSome_other (vaultRename st p (d ++ "/" ++ f2 ++ "." ++ e)) (d ++ "/" ++ b ++ ".md")
          (d ++ "/" ++ f2 ++ ".md") (d ++ "/" ++ f2 ++ "." ++ e) hrenamed hfinne)

/-- C3: an upsert that renames the media file (non-blank stepName whose slug
differs from the current basename, so the rename branch runs) never loses the
metadata: when the media path resolves and a sidecar existed beforehand, after
`saveMeta` a sidecar exists at the old sidecar path or at the final sidecar
path; and whenever the old sidecar is gone, a sidecar is present at the final
path (the old copy is trashed only under the guard that confirms the new one). -/
theorem c3_sidecar_never_lost (st : Vault) (d b e : String) (m : SaveMetaPatch)
    (now : Nat) (af : VFile) (p : String)
    (hpdef : p = d ++ "/" ++ b ++ "." ++ e)
    (hbs : ∀ c ∈ b.data, c ≠ '/')
    (hes : ∀ c ∈ e.data, c ≠ '/') (hed : ∀ c ∈ e.data, c ≠ '.')
    (hemd : e ≠ "md")
    (hvid : getByPath st p = some af)
    (hdes : jsTrim (m.stepName.getD "") ≠ "")
    (hts : (if slug (jsTrim (m.stepName.getD "")) ≠ "" then slug (jsTrim (m.stepName.getD ""))
            else "video-" ++ natDigits now) ≠ b)
    (hside : (getByPath st (sidecarPathOf p)).isSome = true) :
    ((getByPath (saveMeta st p m now).1 (sidecarPathOf p)).isSome = true ∨
      (getByPath (saveMeta st p m now).1
        (sidecarPathOf (saveMeta st p m now).2)).isSome = true) ∧
    ((getByPath (saveMeta st p m now).1 (sidecarPathOf p)).isSome = false →
      (getByPath (saveMeta st p m now).1
        (sidecarPathOf (saveMeta st p m now).2)).isSome = true) := by
  have h := saveMeta_rename_keeps st d b e m now af p hpdef hbs hes hed hemd hvid hdes hts
  exact ⟨Or.inr h, fun _ => h⟩

theorem c3_witness :
    ((getByPath (saveMeta [(⟨"Dance/old.mp4", "vid"⟩ : VFile), ⟨"Dance/old.md", "meta"⟩] "Dance/old.mp4" { stepName := some "New Step" } 0).1 (sidecarPathOf "Dance/old.mp4")).isSome = true ∨
      (getByPath (saveMeta [(⟨"Dance/old.mp4", "vid"⟩ : VFile), ⟨"Dance/old.md", "meta"⟩] "Dance/old.mp4" { stepName := some "New Step" } 0).1 (sidecarPathOf (saveMeta [(⟨"Dance/old.mp4", "vid"⟩ : VFile), ⟨"Dance/old.md", "meta"⟩] "Dance/old.mp4" { stepName := some "New Step" } 0).2)).isSome = true) ∧
    ((getByPath (saveMeta [(⟨"Dance/old.mp4", "vid"⟩ : VFile), ⟨"Dance/old.md", "meta"⟩] "Dance/old.mp4" { stepName := some "New Step" } 0).1 (sidecarPathOf "Dance/old.mp4")).isSome = false →
      (getByPath (saveMeta [(⟨"Dance/old.mp4", "vid"⟩ : VFile), ⟨"Dance/old.md", "meta"⟩] "Dance/old.mp4" { stepName := some "New Step" } 0).1 (sidecarPathOf (saveMeta [(⟨"Dance/old.mp4", "vid"⟩ : VFile), ⟨"Dance/old.md", "meta"⟩] "Dance/old.mp4" { stepName := some "New Step" } 0).2)).isSome = true) :=
  c3_sidecar_never_lost [⟨"Dance/old.mp4", "vid"⟩, ⟨"Dance/old.md", "meta"⟩]
    "Dance" "old" "mp4" { stepName := some "New Step" } 0 ⟨"Dance/old.mp4", "vid"⟩
    "Dance/old.mp4" (by decide) (by decide) (by decide) (by decide) (by decide)
    (by decide) (by decide) (by decide) (by decide)
theorem tagsLineOf_head : ∀ fm : Fm, ∃ u, (tagsLineOf fm).data = '#' :: u := by
  intro fm
  simp only [tagsLineOf]
  split
  · exact ⟨_, rfl⟩
  · exact ⟨_, rfl⟩

theorem saveMeta_snd_norename (st : Vault) (p : String) (m : SaveMetaPatch) (now : Nat)
    (hno : jsTrim (m.stepName.getD "") = "" ∨
      (if slug (jsTrim (m.stepName.getD "")) ≠ "" then slug (jsTrim (m.stepName.getD ""))
        else "video-" ++ natDigits now) = fileBase p) :
    (saveMeta st p m now).2 = p := by
  simp only [saveMeta]
  by_cases hdes : jsTrim (m.stepName.getD "") ≠ ""
  · rw [if_pos hdes]
    rcases hq : getByPath st p with _ | af
    · simp only [hq]
      rw [if_neg (show ¬(p ≠ p) from fun hcon => hcon rfl)]
    · simp only [hq]
      have haf : af.path = p := getByPath_path st p af hq
      rw [haf]
      rcases hno with hno | hno
      · exact absurd hno hdes
      · rw [if_neg (show ¬((if slug (jsTrim (m.stepName.getD "")) ≠ ""
            then slug (jsTrim (m.stepName.getD "")) else "video-" ++ natDigits now) ≠
            fileBase p) from fun hcon => hcon hno)]
        rw [if_neg (show ¬(p ≠ p) from fun hcon => hcon rfl)]
  · rw [if_neg hdes]
    rw [if_neg (show ¬(p ≠ p) from fun hcon => hcon rfl)]

theorem upsertBody_second (fm : Fm) (body1 : String)
    (hhead : (jsLines body1).head? = some (tagsLineOf fm))
    (hcr : ∀ c ∈ body1.data, c ≠ '\r') :
    upsertBody (some ("\n\n" ++ body1)) fm = tagsLineOf fm ++ "\n\n" ++ body1 := by
  have h0 : ((splitLinesL body1.data).map (fun l => (⟨l⟩ : String))).head? =
      some (tagsLineOf fm) := hhead
  rw [List.head?_map] at h0
  rcases Option.map_eq_some'.mp h0 with ⟨mm, hm1, hm2⟩
  have hm3 : mm = (tagsLineOf fm).data := congrArg String.data hm2
  have hpre := splitLinesL_head_prefixOf body1.data mm hm1
  rw [hm3] at hpre
  rcases List.isPrefixOf_iff_prefix.mp hpre with ⟨r, hr⟩
  rcases tagsLineOf_head fm with ⟨u, hu⟩
  have hb1 : body1.data = '#' :: (u ++ r) := by
    rw [← hr, hu]
    rfl
  have hcrb : ∀ c ∈ ("\n\n" ++ body1).data, c ≠ '\r' := by
    intro c hc
    rw [show ("\n\n" ++ body1).data = '\n' :: '\n' :: body1.data from rfl] at hc
    rcases List.mem_cons.mp hc with rfl | hc
    · decide
    · rcases List.mem_cons.mp hc with rfl | hc
      · decide
      · exact hcr c hc
  have hjl : (jsLines ("\n\n" ++ body1)).headD "" = "" := by
    show ((splitLinesL ('\n' :: '\n' :: body1.data)).map (fun l => (⟨l⟩ : String))).headD "" = ""
    rw [splitLinesL_cons_nl]
    rfl
  have hns : strStartsWith (jsTrim ((jsLines ("\n\n" ++ body1)).headD "")) "#DanceLibrary"
      = false := by
    rw [hjl]
    decide
  have hkeep : dropFirstTagLine ("\n\n" ++ body1) = "\n\n" ++ body1 :=
    dropFirstTagLine_eq_self ("\n\n" ++ body1) hcrb hns
  have hdl : dropLeadingNl ("\n\n" ++ body1) = body1 := by
    apply String.ext
    show List.dropWhile (fun c => c = '\n') ('\n' :: '\n' :: body1.data) = body1.data
    rw [hb1]
    rw [List.dropWhile_cons, if_pos (by decide), List.dropWhile_cons, if_pos (by decide),
      List.dropWhile_cons, if_neg (by decide)]
  show collapseTrailing (tagsLineOf fm ++ "\n\n" ++
    dropLeadingNl (dropFirstTagLine ((some ("\n\n" ++ body1)).getD ""))) = _
  rw [show ((some ("\n\n" ++ body1)).getD "") = "\n\n" ++ body1 from rfl, hkeep, hdl]
  have htag := tagsLineOf_chars fm
  have hnl : ∀ c ∈ (tagsLineOf fm).data, c ≠ '\n' := fun c hc => (htag c hc).1
  show (⟨collapseTrailingL (tagsLineOf fm ++ "\n\n" ++ body1).data⟩ : String) =
    tagsLineOf fm ++ "\n\n" ++ body1
  have hd : (tagsLineOf fm ++ "\n\n" ++ body1).data =
      (tagsLineOf fm).data ++ '\n' :: '\n' :: ('#' :: (u ++ r)) := by
    rw [show (tagsLineOf fm ++ "\n\n" ++ body1).data =
      ((tagsLineOf fm).data ++ ['\n', '\n']) ++ body1.data from rfl,
      hb1, List.append_assoc]
    rfl
  rw [hd, collapseTrailingL_sep_cons _ _ _ hnl (by decide)]
  exact congrArg (fun l => (⟨l⟩ : String)) hd.symm

/-- C1, amended: the operation is idempotent on the final media path but
not on the sidecar text.  First, whenever the patch carries a blank
stepName or one whose slug already equals the media basename (the
no-rename case named by the claim), `saveMeta` returns the input path, so
both calls end at the same path.  Second, the rebuilt body is not
idempotent: the stored body parsed from a frontmatter sidecar starts
with a blank line, the index-0 filter therefore removes nothing, and an
upsert over a stored body `"\n\n" ++ body1` whose first line is the
managed tag line prepends the tag line again, yielding
`tag ++ "\n\n" ++ body1 ≠ body1`, so the two sidecar texts differ. -/
theorem c1_amended :
    (∀ (st : Vault) (p : String) (m : SaveMetaPatch) (now : Nat),
      (jsTrim (m.stepName.getD "") = "" ∨
        (if slug (jsTrim (m.stepName.getD "")) ≠ "" then slug (jsTrim (m.stepName.getD ""))
          else "video-" ++ natDigits now) = fileBase p) →
      (saveMeta st p m now).2 = p) ∧
    (∀ (fm : Fm) (body1 : String),
      (jsLines body1).head? = some (tagsLineOf fm) →
      (∀ c ∈ body1.data, c ≠ '\r') →
      upsertBody (some ("\n\n" ++ body1)) fm = tagsLineOf fm ++ "\n\n" ++ body1 ∧
      upsertBody (some ("\n\n" ++ body1)) fm ≠ body1) := by
  refine ⟨saveMeta_snd_norename, ?_⟩
  intro fm body1 hhead hcr
  have heq := upsertBody_second fm body1 hhead hcr
  refine ⟨heq, ?_⟩
  rw [heq]
  intro hcon
  have hlen : (tagsLineOf fm ++ "\n\n" ++ body1).data.length = body1.data.length :=
    congrArg (fun s => s.data.length) hcon
  rw [show (tagsLineOf fm ++ "\n\n" ++ body1).data =
    ((tagsLineOf fm).data ++ ['\n', '\n']) ++ body1.data from rfl] at hlen
  simp only [List.length_append, List.length_cons, List.length_nil] at hlen
  omega

theorem c1_amended_witness :
    (saveMeta [(⟨"d/a.mp4", "v"⟩ : VFile)] "d/a.mp4" { stepName := some "a" } 0).2 = "d/a.mp4" ∧
    upsertBody (some ("\n\n" ++ "#DanceLibrary\nx")) [] =
      tagsLineOf [] ++ "\n\n" ++ "#DanceLibrary\nx" ∧
    upsertBody (some ("\n\n" ++ "#DanceLibrary\nx")) [] ≠ "#DanceLibrary\nx" := by
  refine ⟨c1_amended.1 [(⟨"d/a.mp4", "v"⟩ : VFile)] "d/a.mp4" { stepName := some "a" } 0
    (Or.inr (by decide)), ?_, ?_⟩
  · exact (c1_amended.2 [] "#DanceLibrary\nx" (by decide) (by decide)).1
  · exact (c1_amended.2 [] "#DanceLibrary\nx" (by decide) (by decide)).2
